import Mathlib

/-!
Shallow embedding of the incremental sync engine of `claude-history-cli`
(Go sources under `internal/sync`, `internal/api` and the `sync` command),
together with theorems settling the specification claims about it.

File I/O is abstracted where noted: functions that in Go read a file and
then operate on the parsed data are embedded as pure functions over the
parsed data, with the parsing/reading stage made explicit as a parameter.
-/

namespace SyncEngine

/-- The canonical message record (Go struct `sync.Message`, delta.go).
Fields: `uuid`, `timestamp`, `role`, `content`, `model` (omitempty),
`type` (omitempty), `tokens` (omitempty).  Go zero values: empty string
and 0. -/
structure Message where
  uuid : String
  timestamp : String
  role : String
  content : String
  model : String := ""
  type : String := ""
  tokens : Int := 0
deriving Repr, DecidableEq

/-- Go struct `sync.FileInfo` (scanner.go): a scanned candidate log file. -/
structure FileInfo where
  path : String
  projectPath : String
  sessionID : String
  modTime : Int
  size : Int
deriving Repr, DecidableEq

/-- Go struct `sync.Delta` (delta.go). -/
structure Delta where
  sessionID : String
  projectPath : String
  messages : List Message
  newLastUUID : String
deriving Repr, DecidableEq

/-- The scan loop of Go `extractNewMessages` (delta.go): the first message
whose uuid equals `lastSyncedUUID` determines the suffix strictly after it
(`messages[i+1:]`, `nil` when the match is the last element); `none` means
the uuid was not found anywhere. -/
def findAfterUUID (lastSyncedUUID : String) : List Message → Option (List Message)
  | [] => none
  | m :: rest =>
    if m.uuid = lastSyncedUUID then some rest else findAfterUUID lastSyncedUUID rest

/-- Go `extractNewMessages` (delta.go): empty watermark means everything is
new; a found watermark yields the strict suffix after its first occurrence;
a watermark that is absent from the list yields the whole list (file was
rewritten, full resync). -/
def extractNewMessages (messages : List Message) (lastSyncedUUID : String) : List Message :=
  if lastSyncedUUID = "" then
    messages
  else
    match findAfterUUID lastSyncedUUID messages with
    | some suffix => suffix
    | none => messages

/-- Go `CalculateDelta` (delta.go), with the file-reading and per-line JSON
parsing stage abstracted: `allMessages` is the list of valid messages
parsed from the file, in file order.  Returns `none` (Go `nil`) when there
are no new messages, otherwise a `Delta` whose `newLastUUID` is the uuid of
the final new message. -/
def CalculateDelta (file : FileInfo) (allMessages : List Message)
    (lastSyncedUUID : String) : Option Delta :=
  let newMessages := extractNewMessages allMessages lastSyncedUUID
  match newMessages.getLast? with
  | none => none
  | some lastMsg =>
    some { sessionID := file.sessionID
           projectPath := file.projectPath
           messages := newMessages
           newLastUUID := lastMsg.uuid }

/-- Sample messages used by concrete witnesses, mirroring the shapes in the
repository's own delta tests. -/
def msgOne : Message :=
  { uuid := "msg-1", timestamp := "2024-01-01T00:00:00Z", role := "user", content := "Hello" }

def msgTwo : Message :=
  { uuid := "msg-2", timestamp := "2024-01-01T00:01:00Z", role := "assistant",
    content := "Hi there", model := "claude-sonnet-4-5-20250929", tokens := 42 }

def msgThree : Message :=
  { uuid := "msg-3", timestamp := "2024-01-01T00:02:00Z", role := "user", content := "Thanks" }

def sampleFile : FileInfo :=
  { path := "/data/test-session.jsonl", projectPath := "/test",
    sessionID := "test-session", modTime := 1700000000, size := 512 }

theorem findAfterUUID_eq_none (w : String) (M : List Message)
    (h : ∀ m ∈ M, m.uuid ≠ w) : findAfterUUID w M = none := by
  induction M with
  | nil => rfl
  | cons m rest ih =>
    unfold findAfterUUID
    rw [if_neg (h m (List.mem_cons_self m rest))]
    exact ih fun x hx => h x (List.mem_cons_of_mem _ hx)

theorem findAfterUUID_last (w : String) (pre : List Message) (mlast : Message)
    (hpre : ∀ m ∈ pre, m.uuid ≠ w) (hlast : mlast.uuid = w) :
    findAfterUUID w (pre ++ [mlast]) = some [] := by
  induction pre with
  | nil => simp [findAfterUUID, hlast]
  | cons m rest ih =>
    rw [List.cons_append]
    unfold findAfterUUID
    rw [if_neg (hpre m (List.mem_cons_self m rest))]
    exact ih fun x hx => hpre x (List.mem_cons_of_mem _ hx)

/-- C3: if the watermark is non-empty and no message of `M` carries it as
uuid, `extractNewMessages` returns all of `M`: the entire content is
resynchronized as new. -/
theorem extractNewMessages_watermark_missing (M : List Message) (w : String)
    (hw : w ≠ "") (hnot : ∀ m ∈ M, m.uuid ≠ w) :
    extractNewMessages M w = M := by
  unfold extractNewMessages
  rw [if_neg hw, findAfterUUID_eq_none w M hnot]

/-- C3 witness: a concrete three-message sequence and the absent watermark
`"unknown"`. -/
theorem extractNewMessages_watermark_missing_witness :
    extractNewMessages [msgOne, msgTwo, msgThree] "unknown" = [msgOne, msgTwo, msgThree] :=
  extractNewMessages_watermark_missing [msgOne, msgTwo, msgThree] "unknown"
    (by decide) (by decide)

/-- C6: with an empty watermark and a non-empty parsed message list,
`CalculateDelta` returns a `Delta` carrying all of `M` in file order whose
`newLastUUID` is the uuid of the last new message. -/
theorem CalculateDelta_empty_watermark (file : FileInfo) (M : List Message) (hM : M ≠ []) :
    CalculateDelta file M "" =
      some { sessionID := file.sessionID, projectPath := file.projectPath,
             messages := M, newLastUUID := (M.getLast hM).uuid } := by
  unfold CalculateDelta
  have h1 : extractNewMessages M "" = M := by
    unfold extractNewMessages
    rw [if_pos rfl]
  simp only [h1, List.getLast?_eq_getLast M hM]

/-- C6 witness: the three-message sequence of the repository's
`TestCalculateDelta_AllNew` test, empty watermark. -/
theorem CalculateDelta_empty_watermark_witness :
    CalculateDelta sampleFile [msgOne, msgTwo, msgThree] "" =
      some { sessionID := "test-session", projectPath := "/test",
             messages := [msgOne, msgTwo, msgThree], newLastUUID := "msg-3" } :=
  CalculateDelta_empty_watermark sampleFile [msgOne, msgTwo, msgThree] (by decide)

/-- C7: when the watermark is the uuid of the last message (uuids being
unique within a file and non-empty, per the data-model invariant),
`CalculateDelta` returns `none` (Go `nil`), never an empty `Delta`. -/
theorem CalculateDelta_watermark_last (file : FileInfo) (M : List Message) (w : String)
    (hM : M ≠ []) (hw : w ≠ "") (hnd : (M.map Message.uuid).Nodup)
    (hlast : (M.getLast hM).uuid = w) :
    CalculateDelta file M w = none := by
  have hsplit : M.dropLast ++ [M.getLast hM] = M := List.dropLast_append_getLast hM
  have hpre : ∀ m ∈ M.dropLast, m.uuid ≠ w := by
    intro m hm heq
    have hmap : (M.map Message.uuid) = M.dropLast.map Message.uuid ++ [w] := by
      rw [← hsplit, List.map_append]
      simp [hlast]
    rw [hmap] at hnd
    have hdisj := List.disjoint_of_nodup_append hnd
    exact hdisj (List.mem_map_of_mem Message.uuid hm) (by simp [heq])
  have hfind : findAfterUUID w M = some [] := by
    rw [← hsplit]
    exact findAfterUUID_last w M.dropLast (M.getLast hM) hpre hlast
  unfold CalculateDelta extractNewMessages
  rw [if_neg hw, hfind]
  rfl

/-- C7 witness: the three-message sequence with watermark `"msg-3"`
(mirrors `TestCalculateDelta_NoNew`). -/
theorem CalculateDelta_watermark_last_witness :
    CalculateDelta sampleFile [msgOne, msgTwo, msgThree] "msg-3" = none :=
  CalculateDelta_watermark_last sampleFile [msgOne, msgTwo, msgThree] "msg-3"
    (by decide) (by decide) (by decide) (by decide)

/-! ## Go `encoding/json` marshaling model

`CalculateFileHash` (hash.go) serializes a `map[string]interface{}` and the
`Message` struct through `json.Marshal`; the state store (state.go) uses
`json.MarshalIndent`.  The model below embeds the relevant fragment of Go's
encoder: compact output, struct fields in declared order, map keys sorted
byte-wise, strings escaped with the default HTML escaping. -/

/-- Lowercase hexadecimal digit, as in Go's `encoding/hex` alphabet and the
`\uXXXX` escapes of `encoding/json`. -/
def hexDigitChar (n : Nat) : Char :=
  if n < 10 then Char.ofNat (48 + n) else Char.ofNat (87 + n)

/-- Decimal digit character. -/
def digitChar (n : Nat) : Char :=
  Char.ofNat (48 + n)

/-- Digits of `n` in base 10, least significant first.  Structural
recursion on a fuel bound (any `fuel > n` suffices, since `n` strictly
decreases at every division by 10), keeping the definition
kernel-evaluable. -/
def natToDecimalRev (fuel n : Nat) : List Char :=
  match fuel with
  | 0 => []
  | fuel' + 1 =>
    if n < 10 then [digitChar n]
    else digitChar (n % 10) :: natToDecimalRev fuel' (n / 10)

/-- Go `%d` rendering of a natural number. -/
def natToDecimal (n : Nat) : List Char :=
  (natToDecimalRev (n + 1) n).reverse

/-- Go `%d` rendering of an `int`. -/
def intToDecimal (i : Int) : List Char :=
  if i < 0 then '-' :: natToDecimal i.natAbs else natToDecimal i.toNat

/-- One character of a Go-escaped JSON string (`encoding/json` encoder with
its default HTML escaping): `"` `\` and the control characters NL CR TAB get
two-character escapes, the remaining control characters and `<` `>` `&` get
`\u00XX`, U+2028/U+2029 get `\u202X`, everything else passes through. -/
def escapeChar (c : Char) : List Char :=
  if c = '"' then ['\\', '"']
  else if c = '\\' then ['\\', '\\']
  else if c = '\n' then ['\\', 'n']
  else if c = '\r' then ['\\', 'r']
  else if c = '\t' then ['\\', 't']
  else if c.toNat < 0x20 ∨ c = '<' ∨ c = '>' ∨ c = '&' then
    ['\\', 'u', '0', '0', hexDigitChar (c.toNat / 16), hexDigitChar (c.toNat % 16)]
  else if c.toNat = 0x2028 ∨ c.toNat = 0x2029 then
    ['\\', 'u', '2', '0', '2', hexDigitChar (c.toNat % 16)]
  else [c]

/-- Go JSON string literal: quoted, each character escaped. -/
def escapeString (s : String) : String :=
  ⟨'"' :: (s.data.map escapeChar).flatten ++ ['"']⟩

/-- JSON values producible by the Go code under consideration. -/
inductive Jval where
  | jnull
  | jbool (b : Bool)
  | jnum (n : Int)
  | jstr (s : String)
  | jarr (elems : List Jval)
  | jobj (fields : List (String × Jval))
deriving Inhabited

/-- Byte-wise (equivalently code-point-wise) string order used by Go's
`sort.Strings` when marshaling map keys. -/
def charListLe : List Char → List Char → Bool
  | [], _ => true
  | _ :: _, [] => false
  | a :: as, b :: bs =>
    if a.toNat < b.toNat then true
    else if b.toNat < a.toNat then false
    else charListLe as bs

def stringLe (a b : String) : Bool :=
  charListLe a.data b.data

mutual

/-- Compact Go `json.Marshal` rendering of a JSON value; object fields are
emitted in the order of the field list. -/
def marshalJval : Jval → String
  | .jnull => "null"
  | .jbool b => if b then "true" else "false"
  | .jnum n => ⟨intToDecimal n⟩
  | .jstr s => escapeString s
  | .jarr es => "[" ++ marshalArr es ++ "]"
  | .jobj fs => "\x7b" ++ marshalObj fs ++ "\x7d"

def marshalArr : List Jval → String
  | [] => ""
  | [v] => marshalJval v
  | v :: rest => marshalJval v ++ "," ++ marshalArr rest

def marshalObj : List (String × Jval) → String
  | [] => ""
  | [(k, v)] => escapeString k ++ ":" ++ marshalJval v
  | (k, v) :: rest => escapeString k ++ ":" ++ marshalJval v ++ "," ++ marshalObj rest

end

/-- Insertion step of the key sort Go applies to map entries. -/
def insertField (kv : String × Jval) : List (String × Jval) → List (String × Jval)
  | [] => [kv]
  | kv2 :: rest =>
    if stringLe kv.1 kv2.1 then kv :: kv2 :: rest else kv2 :: insertField kv rest

/-- Sort object fields by key, byte-wise ascending, as Go's `json.Marshal`
does for every `map[string]T`. -/
def sortFields : List (String × Jval) → List (String × Jval)
  | [] => []
  | kv :: rest => insertField kv (sortFields rest)

/-- Go `json.Marshal` of a `map[string]interface{}`: the entries are
serialized in sorted-key order, regardless of the order in which the map
literal lists them. -/
def marshalGoMap (fs : List (String × Jval)) : String :=
  marshalJval (.jobj (sortFields fs))

/-! ## Content hasher (hash.go) -/

/-- Contents of the `modelSet` built by Go `extractModels` (hash.go): the
distinct non-empty `model` values of the messages (listed here in one fixed
order; the set itself is unordered). -/
def extractModelsSet (messages : List Message) : List String :=
  ((messages.map Message.model).filter (fun m => m != "")).dedup

/-- Go `extractModels` (hash.go).  The model set is a Go `map[string]bool`
and the output slice is built by a `range` loop over it; Go's map iteration
order is unspecified (deliberately randomized by the runtime), so it is
embedded as the explicit `enumOrder` parameter, constrained by callers via
`ModelEnumOrder` to be a permutation of the set's elements. -/
def extractModels (messages : List Message) (enumOrder : List String) : List String :=
  if extractModelsSet messages = [] then ["unknown"] else enumOrder

/-- `enumOrder` is a possible iteration order of the model set of
`messages`. -/
def ModelEnumOrder (messages : List Message) (enumOrder : List String) : Prop :=
  enumOrder.Perm (extractModelsSet messages)

instance (messages : List Message) (enumOrder : List String) :
    Decidable (ModelEnumOrder messages enumOrder) :=
  inferInstanceAs (Decidable (enumOrder.Perm (extractModelsSet messages)))

/-- Go `calculateTotalTokens` (hash.go): running sum of the `tokens`
fields. -/
def calculateTotalTokens (messages : List Message) : Int :=
  messages.foldl (fun total msg => total + msg.tokens) 0

/-- `json.Marshal` fields of the `Message` struct (delta.go): declared
order, with `model`, `type` and `tokens` carrying `omitempty`. -/
def messageFields (m : Message) : List (String × Jval) :=
  [("uuid", .jstr m.uuid), ("timestamp", .jstr m.timestamp),
   ("role", .jstr m.role), ("content", .jstr m.content)]
  ++ (if m.model = "" then [] else [("model", .jstr m.model)])
  ++ (if m.type = "" then [] else [("type", .jstr m.type)])
  ++ (if m.tokens = 0 then [] else [("tokens", .jnum m.tokens)])

/-- Go `json.Marshal(msg)` for one `Message` (a struct: declared field
order). -/
def marshalMessage (m : Message) : String :=
  marshalJval (.jobj (messageFields m))

/-- The `metadata` map literal of `CalculateFileHash` (hash.go), listed in
source declaration order; being a Go map, its serialization order is
determined by `marshalGoMap`, not by this list.  The parsed message list is
non-empty, split as `m0 :: rest`. -/
def fileHashMetadata (file : FileInfo) (m0 : Message) (rest : List Message)
    (modelOrder : List String) : List (String × Jval) :=
  let msgs := m0 :: rest
  [("sessionId", .jstr file.sessionID),
   ("userId", .jstr ""),
   ("projectPath", .jstr file.projectPath),
   ("timestamp", .jstr m0.timestamp),
   ("startTime", .jstr m0.timestamp),
   ("endTime", .jstr (msgs.getLast (List.cons_ne_nil m0 rest)).timestamp),
   ("messageCount", .jnum msgs.length),
   ("models", .jarr ((extractModels msgs modelOrder).map Jval.jstr)),
   ("totalTokens", .jnum (calculateTotalTokens msgs))]

/-- The metadata line `string(metadataJSON)` of `CalculateFileHash`:
`json.Marshal` of the metadata map. -/
def metadataLine (file : FileInfo) (m0 : Message) (rest : List Message)
    (modelOrder : List String) : String :=
  marshalGoMap (fileHashMetadata file m0 rest modelOrder)

/-- The metadata line as claim C2 describes it: the same record serialized
compactly with the fields appearing in the declared key order `sessionId`,
`userId`, `projectPath`, `timestamp`, `startTime`, `endTime`,
`messageCount`, `models`, `totalTokens`.  Definition follows the claim's
words, for comparison against `metadataLine`. -/
def metadataLineDeclaredOrder (file : FileInfo) (m0 : Message) (rest : List Message)
    (modelOrder : List String) : String :=
  marshalJval (.jobj (fileHashMetadata file m0 rest modelOrder))

/-- The joining loop of `CalculateFileHash`: lines joined with a single
`\n` separator and no trailing newline. -/
def joinLines : List String → String
  | [] => ""
  | l :: rest => rest.foldl (fun acc line => acc ++ "\n" ++ line) l

/-- The `lines` construction of `CalculateFileHash`: metadata line first,
then one marshaled line per message. -/
def sessionJSONL (file : FileInfo) (m0 : Message) (rest : List Message)
    (modelOrder : List String) : String :=
  joinLines (metadataLine file m0 rest modelOrder ::
    (m0 :: rest).map marshalMessage)

/-! ## Single-line property of the marshaled output -/

theorem string_data_append (a b : String) : (a ++ b).data = a.data ++ b.data := by
  cases a; cases b; rfl

theorem hexDigitChar_ne_newline (n : Nat) (h : n < 16) : hexDigitChar n ≠ '\n' := by
  interval_cases n <;> decide

theorem digitChar_ne_newline (k : Nat) (h : k < 10) : digitChar k ≠ '\n' := by
  interval_cases k <;> decide

theorem natToDecimalRev_digits (fuel : Nat) :
    ∀ n, ∀ c ∈ natToDecimalRev fuel n, ∃ k, k < 10 ∧ c = digitChar k := by
  induction fuel with
  | zero => intro n c hc; exact absurd hc (List.not_mem_nil c)
  | succ fuel ih =>
    intro n c hc
    rw [natToDecimalRev] at hc
    split at hc
    · next h =>
      rw [List.mem_singleton] at hc
      exact ⟨n, h, hc⟩
    · next h =>
      rw [List.mem_cons] at hc
      rcases hc with hc | hc
      · exact ⟨n % 10, Nat.mod_lt _ (by omega), hc⟩
      · exact ih (n / 10) c hc

theorem intToDecimal_no_newline (i : Int) : '\n' ∉ intToDecimal i := by
  unfold intToDecimal natToDecimal
  split <;> intro hmem
  · rw [List.mem_cons] at hmem
    rcases hmem with h | h
    · exact absurd h (by decide)
    · rw [List.mem_reverse] at h
      obtain ⟨k, hk, hck⟩ := natToDecimalRev_digits _ _ _ h
      exact digitChar_ne_newline k hk hck.symm
  · rw [List.mem_reverse] at hmem
    obtain ⟨k, hk, hck⟩ := natToDecimalRev_digits _ _ _ hmem
    exact digitChar_ne_newline k hk hck.symm

theorem escapeChar_no_newline (c : Char) : '\n' ∉ escapeChar c := by
  unfold escapeChar
  split_ifs with h1 h2 h3 h4 h5 h6 h7
  · decide
  · decide
  · decide
  · decide
  · decide
  · have hlt : c.toNat < 256 := by
      rcases h6 with h | h | h | h
      · omega
      · subst h; decide
      · subst h; decide
      · subst h; decide
    intro hmem
    simp only [List.mem_cons, List.mem_singleton, List.not_mem_nil, or_false] at hmem
    rcases hmem with h | h | h | h | h | h
    · exact absurd h (by decide)
    · exact absurd h (by decide)
    · exact absurd h (by decide)
    · exact absurd h (by decide)
    · exact hexDigitChar_ne_newline _ (Nat.div_lt_of_lt_mul (by omega)) h.symm
    · exact hexDigitChar_ne_newline _ (Nat.mod_lt _ (by omega)) h.symm
  · intro hmem
    simp only [List.mem_cons, List.mem_singleton, List.not_mem_nil, or_false] at hmem
    rcases hmem with h | h | h | h | h | h
    · exact absurd h (by decide)
    · exact absurd h (by decide)
    · exact absurd h (by decide)
    · exact absurd h (by decide)
    · exact absurd h (by decide)
    · exact hexDigitChar_ne_newline _ (Nat.mod_lt _ (by omega)) h.symm
  · intro hmem
    rw [List.mem_singleton] at hmem
    exact h3 hmem.symm

theorem escapeString_no_newline (s : String) : '\n' ∉ (escapeString s).data := by
  unfold escapeString
  intro hmem
  rcases List.mem_cons.mp hmem with h | h
  · exact absurd h (by decide)
  · rcases List.mem_append.mp h with h2 | h2
    · rw [List.mem_flatten] at h2
      obtain ⟨l, hl, hc⟩ := h2
      rw [List.mem_map] at hl
      obtain ⟨c, _, rfl⟩ := hl
      exact escapeChar_no_newline c hc
    · exact absurd h2 (by decide)

mutual

theorem marshalJval_no_newline : (v : Jval) → '\n' ∉ (marshalJval v).data
  | .jnull => by decide
  | .jbool b => by cases b <;> decide
  | .jnum n => by
    unfold marshalJval
    exact intToDecimal_no_newline n
  | .jstr s => by
    unfold marshalJval
    exact escapeString_no_newline s
  | .jarr es => by
    unfold marshalJval
    intro hmem
    rw [string_data_append, string_data_append] at hmem
    rcases List.mem_append.mp hmem with h | h
    · rcases List.mem_append.mp h with h2 | h2
      · exact absurd h2 (by decide)
      · exact marshalArr_no_newline es h2
    · exact absurd h (by decide)
  | .jobj fs => by
    unfold marshalJval
    intro hmem
    rw [string_data_append, string_data_append] at hmem
    rcases List.mem_append.mp hmem with h | h
    · rcases List.mem_append.mp h with h2 | h2
      · exact absurd h2 (by decide)
      · exact marshalObj_no_newline fs h2
    · exact absurd h (by decide)

theorem marshalArr_no_newline : (es : List Jval) → '\n' ∉ (marshalArr es).data
  | [] => by decide
  | [v] => by
    unfold marshalArr
    exact marshalJval_no_newline v
  | v :: w :: rest => by
    unfold marshalArr
    intro hmem
    rw [string_data_append, string_data_append] at hmem
    rcases List.mem_append.mp hmem with h | h
    · rcases List.mem_append.mp h with h2 | h2
      · exact marshalJval_no_newline v h2
      · exact absurd h2 (by decide)
    · exact marshalArr_no_newline (w :: rest) h

theorem marshalObj_no_newline : (fs : List (String × Jval)) → '\n' ∉ (marshalObj fs).data
  | [] => by decide
  | [(k, v)] => by
    unfold marshalObj
    intro hmem
    rw [string_data_append, string_data_append] at hmem
    rcases List.mem_append.mp hmem with h | h
    · rcases List.mem_append.mp h with h2 | h2
      · exact escapeString_no_newline k h2
      · exact absurd h2 (by decide)
    · exact marshalJval_no_newline v h
  | (k, v) :: kv2 :: rest => by
    unfold marshalObj
    intro hmem
    rw [string_data_append, string_data_append, string_data_append,
      string_data_append] at hmem
    rcases List.mem_append.mp hmem with h | h
    · rcases List.mem_append.mp h with h2 | h2
      · rcases List.mem_append.mp h2 with h3 | h3
        · rcases List.mem_append.mp h3 with h4 | h4
          · exact escapeString_no_newline k h4
          · exact absurd h4 (by decide)
        · exact marshalJval_no_newline v h3
      · exact absurd h2 (by decide)
    · exact marshalObj_no_newline (kv2 :: rest) h

end

set_option maxRecDepth 10000 in
/-- C2 counterexample: on a concrete three-message session the metadata
line produced by the code has its keys in byte-wise sorted order (Go's
`json.Marshal` sorts the keys of every map), which differs from the
declared-key-order serialization the claim describes. -/
theorem metadataLine_counterexample :
    metadataLine sampleFile msgOne [msgTwo, msgThree] ["claude-sonnet-4-5-20250929"] =
      "\x7b\"endTime\":\"2024-01-01T00:02:00Z\",\"messageCount\":3,\"models\":[\"claude-sonnet-4-5-20250929\"],\"projectPath\":\"/test\",\"sessionId\":\"test-session\",\"startTime\":\"2024-01-01T00:00:00Z\",\"timestamp\":\"2024-01-01T00:00:00Z\",\"totalTokens\":42,\"userId\":\"\"\x7d" ∧
    metadataLine sampleFile msgOne [msgTwo, msgThree] ["claude-sonnet-4-5-20250929"] ≠
      metadataLineDeclaredOrder sampleFile msgOne [msgTwo, msgThree]
        ["claude-sonnet-4-5-20250929"] := by
  decide

/-- C2 amended: `CalculateFileHash` serializes the metadata record as one
compact JSON line (a single line: no newline characters occur in it), but
the nine declared fields appear in byte-wise sorted key order — `endTime`,
`messageCount`, `models`, `projectPath`, `sessionId`, `startTime`,
`timestamp`, `totalTokens`, `userId` — because Go's `json.Marshal` sorts
map keys, not in the declared insertion order. -/
theorem metadataLine_sorted_keys (file : FileInfo) (m0 : Message) (rest : List Message)
    (modelOrder : List String) :
    (sortFields (fileHashMetadata file m0 rest modelOrder)).map Prod.fst =
      ["endTime", "messageCount", "models", "projectPath", "sessionId",
       "startTime", "timestamp", "totalTokens", "userId"] ∧
    '\n' ∉ (metadataLine file m0 rest modelOrder).data :=
  ⟨rfl, marshalJval_no_newline _⟩

/-! ## SHA-256 (Go `crypto/sha256`), over naturals

32-bit machine words are `Nat` reduced by `% 2^32` at every arithmetic
step; bytes are `Nat < 256`.  Everything is structurally recursive so that
concrete digests evaluate inside the kernel. -/

/-- Truncation to a 32-bit word. -/
def w32 (n : Nat) : Nat := n % 4294967296

/-- 32-bit right rotation. -/
def rotr32 (x k : Nat) : Nat := w32 ((x >>> k) ||| (x <<< (32 - k)))

def shaCh (x y z : Nat) : Nat := (x &&& y) ^^^ ((x ^^^ 4294967295) &&& z)

def shaMaj (x y z : Nat) : Nat := (x &&& y) ^^^ (x &&& z) ^^^ (y &&& z)

def shaS0 (x : Nat) : Nat := rotr32 x 2 ^^^ rotr32 x 13 ^^^ rotr32 x 22

def shaS1 (x : Nat) : Nat := rotr32 x 6 ^^^ rotr32 x 11 ^^^ rotr32 x 25

def shaG0 (x : Nat) : Nat := rotr32 x 7 ^^^ rotr32 x 18 ^^^ (x >>> 3)

def shaG1 (x : Nat) : Nat := rotr32 x 17 ^^^ rotr32 x 19 ^^^ (x >>> 10)

/-- The 64 SHA-256 round constants. -/
def shaK : List Nat :=
  [1116352408, 1899447441, 3049323471, 3921009573, 961987163, 1508970993,
   2453635748, 2870763221, 3624381080, 310598401, 607225278, 1426881987,
   1925078388, 2162078206, 2614888103, 3248222580, 3835390401, 4022224774,
   264347078, 604807628, 770255983, 1249150122, 1555081692, 1996064986,
   2554220882, 2821834349, 2952996808, 3210313671, 3336571891, 3584528711,
   113926993, 338241895, 666307205, 773529912, 1294757372, 1396182291,
   1695183700, 1986661051, 2177026350, 2456956037, 2730485921, 2820302411,
   3259730800, 3345764771, 3516065817, 3600352804, 4094571909, 275423344,
   430227734, 506948616, 659060556, 883997877, 958139571, 1322822218,
   1537002063, 1747873779, 1955562222, 2024104815, 2227730452, 2361852424,
   2428436474, 2756734187, 3204031479, 3329325298]

/-- Working state of the compression function: the eight 32-bit variables
`a`–`h` (Go's `h[0]`–`h[7]`). -/
structure ShaState where
  va : Nat
  vb : Nat
  vc : Nat
  vd : Nat
  ve : Nat
  vf : Nat
  vg : Nat
  vh : Nat
deriving Repr, DecidableEq

/-- SHA-256 initial hash value. -/
def shaH0 : ShaState :=
  { va := 1779033703, vb := 3144134277, vc := 1013904242, vd := 2773480762,
    ve := 1359893119, vf := 2600822924, vg := 528734635, vh := 1541459225 }

/-- `count` bytes of `n`, big-endian. -/
def beBytes (count n : Nat) : List Nat :=
  match count with
  | 0 => []
  | c + 1 => beBytes c (n >>> 8) ++ [n % 256]

/-- SHA-256 message padding: `0x80`, zeros to 56 mod 64, the bit length as
8 big-endian bytes. -/
def sha256Pad (msg : List Nat) : List Nat :=
  let L := msg.length
  let k := (119 - L % 64) % 64
  msg ++ [0x80] ++ List.replicate k 0 ++ beBytes 8 (8 * L)

/-- Big-endian 32-bit words from a byte stream. -/
def bytesToWords : List Nat → List Nat
  | b0 :: b1 :: b2 :: b3 :: rest =>
    ((b0 <<< 24) ||| (b1 <<< 16) ||| (b2 <<< 8) ||| b3) :: bytesToWords rest
  | _ => []

/-- Split a word stream into 16-word blocks (fuel-driven for structural
recursion; `fuel ≥ length` suffices). -/
def chunkBlocks (fuel : Nat) (ws : List Nat) : List (List Nat) :=
  match fuel with
  | 0 => []
  | f + 1 =>
    match ws with
    | [] => []
    | _ => ws.take 16 :: chunkBlocks f (ws.drop 16)

/-- One step of the message-schedule extension: append
`σ1(w[n-2]) + w[n-7] + σ0(w[n-15]) + w[n-16]`. -/
def scheduleStep (w : List Nat) : List Nat :=
  let n := w.length
  w ++ [w32 (shaG1 (w.getD (n - 2) 0) + w.getD (n - 7) 0 +
    shaG0 (w.getD (n - 15) 0) + w.getD (n - 16) 0)]

/-- Extend a 16-word block to the 64-word schedule. -/
def extendSchedule (w : List Nat) : List Nat :=
  Nat.rec w (fun _ acc => scheduleStep acc) 48

/-- One SHA-256 round. -/
def roundStep (s : ShaState) (kw : Nat × Nat) : ShaState :=
  let t1 := w32 (s.vh + shaS1 s.ve + shaCh s.ve s.vf s.vg + kw.1 + kw.2)
  let t2 := w32 (shaS0 s.va + shaMaj s.va s.vb s.vc)
  { va := w32 (t1 + t2), vb := s.va, vc := s.vb, vd := s.vc,
    ve := w32 (s.vd + t1), vf := s.ve, vg := s.vf, vh := s.vg }

/-- Compression of one 16-word block into the running hash state. -/
def compressBlock (h : ShaState) (block : List Nat) : ShaState :=
  let w := extendSchedule block
  let f := (shaK.zip w).foldl roundStep h
  { va := w32 (h.va + f.va), vb := w32 (h.vb + f.vb), vc := w32 (h.vc + f.vc),
    vd := w32 (h.vd + f.vd), ve := w32 (h.ve + f.ve), vf := w32 (h.vf + f.vf),
    vg := w32 (h.vg + f.vg), vh := w32 (h.vh + f.vh) }

/-- SHA-256 digest of a byte stream, as 32 bytes. -/
def sha256Bytes (msg : List Nat) : List Nat :=
  let ws := bytesToWords (sha256Pad msg)
  let final := (chunkBlocks ws.length ws).foldl compressBlock shaH0
  ([final.va, final.vb, final.vc, final.vd,
    final.ve, final.vf, final.vg, final.vh].map (beBytes 4)).flatten

/-- Go `hex.EncodeToString`: two lowercase hex digits per byte. -/
def hexEncodeBytes (bytes : List Nat) : String :=
  ⟨(bytes.map (fun b => [hexDigitChar (b / 16), hexDigitChar (b % 16)])).flatten⟩

/-- UTF-8 encoding of one scalar value. -/
def utf8EncodeChar (c : Char) : List Nat :=
  let n := c.toNat
  if n < 0x80 then [n]
  else if n < 0x800 then
    [0xC0 ||| (n >>> 6), 0x80 ||| (n &&& 0x3F)]
  else if n < 0x10000 then
    [0xE0 ||| (n >>> 12), 0x80 ||| ((n >>> 6) &&& 0x3F), 0x80 ||| (n &&& 0x3F)]
  else
    [0xF0 ||| (n >>> 18), 0x80 ||| ((n >>> 12) &&& 0x3F),
     0x80 ||| ((n >>> 6) &&& 0x3F), 0x80 ||| (n &&& 0x3F)]

/-- UTF-8 bytes of a string (Go strings are UTF-8 byte sequences). -/
def utf8Encode (s : String) : List Nat :=
  (s.data.map utf8EncodeChar).flatten

/-- Go `CalculateContentHash` (hash.go): SHA-256 over the UTF-8 bytes of
the content, rendered as lowercase hex. -/
def CalculateContentHash (content : String) : String :=
  hexEncodeBytes (sha256Bytes (utf8Encode content))

/-- Go `CalculateFileHash` (hash.go) with the file reading and line parsing
abstracted: `messages` is the parsed message list, `modelOrder` the
iteration order of the model set (see `extractModels`).  An empty message
list is the `"no valid messages"` error; otherwise the hash of the
canonical JSONL content. -/
def CalculateFileHash (file : FileInfo) (messages : List Message)
    (modelOrder : List String) : Except String String :=
  match messages with
  | [] => .error ("no valid messages in file " ++ file.path)
  | m0 :: rest => .ok (CalculateContentHash (sessionJSONL file m0 rest modelOrder))

/-! ## Digest format and determinism facts -/

/-- The lowercase hexadecimal alphabet. -/
def hexAlphabet : List Char :=
  (List.range 16).map hexDigitChar

theorem hexDigitChar_mem (n : Nat) (h : n < 16) : hexDigitChar n ∈ hexAlphabet := by
  interval_cases n <;> decide

theorem beBytes_length (count n : Nat) : (beBytes count n).length = count := by
  induction count generalizing n with
  | zero => rfl
  | succ c ih => simp [beBytes, ih]

theorem beBytes_lt (count n : Nat) : ∀ b ∈ beBytes count n, b < 256 := by
  induction count generalizing n with
  | zero => intro b hb; exact absurd hb (List.not_mem_nil b)
  | succ c ih =>
    intro b hb
    rw [beBytes, List.mem_append] at hb
    rcases hb with hb | hb
    · exact ih _ b hb
    · rw [List.mem_singleton] at hb
      subst hb
      exact Nat.mod_lt _ (by omega)

theorem sha256Bytes_length (msg : List Nat) : (sha256Bytes msg).length = 32 := by
  simp [sha256Bytes, List.flatten_cons, List.flatten_nil, beBytes_length]

theorem sha256Bytes_lt (msg : List Nat) : ∀ b ∈ sha256Bytes msg, b < 256 := by
  intro b hb
  unfold sha256Bytes at hb
  rw [List.mem_flatten] at hb
  obtain ⟨l, hl, hbl⟩ := hb
  rw [List.mem_map] at hl
  obtain ⟨wrd, _, rfl⟩ := hl
  exact beBytes_lt 4 wrd b hbl

theorem hexEncodeBytes_length (bytes : List Nat) :
    (hexEncodeBytes bytes).data.length = 2 * bytes.length := by
  induction bytes with
  | nil => rfl
  | cons b rest ih =>
    have hstep : (hexEncodeBytes (b :: rest)).data =
        [hexDigitChar (b / 16), hexDigitChar (b % 16)] ++ (hexEncodeBytes rest).data := rfl
    rw [hstep, List.length_append, ih]
    simp
    omega

theorem hexEncodeBytes_mem (bytes : List Nat) (hlt : ∀ b ∈ bytes, b < 256) :
    ∀ c ∈ (hexEncodeBytes bytes).data, c ∈ hexAlphabet := by
  intro c hc
  have hc2 : c ∈ (bytes.map (fun b => [hexDigitChar (b / 16), hexDigitChar (b % 16)])).flatten := hc
  rw [List.mem_flatten] at hc2
  obtain ⟨l, hl, hcl⟩ := hc2
  rw [List.mem_map] at hl
  obtain ⟨b, hb, rfl⟩ := hl
  have hb256 := hlt b hb
  rcases List.mem_cons.mp hcl with h | h
  · subst h
    exact hexDigitChar_mem _ (Nat.div_lt_of_lt_mul (by omega))
  · rw [List.mem_singleton] at h
    subst h
    exact hexDigitChar_mem _ (Nat.mod_lt _ (by omega))

/-- The digest format invariant: `CalculateContentHash` always yields 64
lowercase hexadecimal characters. -/
theorem CalculateContentHash_format (s : String) :
    (CalculateContentHash s).data.length = 64 ∧
    ∀ c ∈ (CalculateContentHash s).data, c ∈ hexAlphabet := by
  constructor
  · rw [CalculateContentHash, hexEncodeBytes_length, sha256Bytes_length]
  · exact hexEncodeBytes_mem _ (sha256Bytes_lt _)

/-- The only place the model-set iteration order enters the hash: with at
most one distinct model, the order is forced, so `extractModels` is
order-insensitive. -/
theorem extractModels_order_insensitive (msgs : List Message) (ord1 ord2 : List String)
    (h1 : ModelEnumOrder msgs ord1) (h2 : ModelEnumOrder msgs ord2)
    (hle : (extractModelsSet msgs).length ≤ 1) :
    extractModels msgs ord1 = extractModels msgs ord2 := by
  unfold ModelEnumOrder at h1 h2
  unfold extractModels
  match hset : extractModelsSet msgs with
  | [] => simp
  | [a] =>
    rw [hset] at h1 h2
    rw [List.perm_singleton] at h1 h2
    rw [h1, h2]
  | a :: b :: rest =>
    rw [hset] at hle
    simp at hle

/-- `CalculateFileHash` is insensitive to the model-set iteration order
whenever the session carries at most one distinct model value. -/
theorem CalculateFileHash_order_insensitive (file : FileInfo) (msgs : List Message)
    (ord1 ord2 : List String) (h1 : ModelEnumOrder msgs ord1)
    (h2 : ModelEnumOrder msgs ord2) (hle : (extractModelsSet msgs).length ≤ 1) :
    CalculateFileHash file msgs ord1 = CalculateFileHash file msgs ord2 := by
  have hEM := extractModels_order_insensitive msgs ord1 ord2 h1 h2 hle
  cases msgs with
  | nil => rfl
  | cons m0 rest =>
    simp only [CalculateFileHash, sessionJSONL, metadataLine, marshalGoMap,
      fileHashMetadata, hEM]

/-- Two-model session used to exhibit the iteration-order sensitivity. -/
def msgModelA : Message :=
  { uuid := "a1", timestamp := "t1", role := "assistant",
    content := "alpha", model := "ma", tokens := 5 }

def msgModelB : Message :=
  { uuid := "b2", timestamp := "t2", role := "assistant",
    content := "beta", model := "mb", tokens := 7 }

/-! ## Injectivity of the JSON string escaper -/

theorem string_ext : ∀ {a b : String}, a.data = b.data → a = b
  | ⟨_⟩, ⟨_⟩, rfl => rfl

/-- Value of a lowercase hexadecimal digit character. -/
def hexVal (c : Char) : Nat :=
  if 97 ≤ c.toNat then c.toNat - 87 else c.toNat - 48

theorem hexVal_hexDigitChar (k : Nat) (h : k < 16) : hexVal (hexDigitChar k) = k := by
  interval_cases k <;> decide

/-- Decoder for one escaped unit: the code point and the remainder.
Left inverse of `escapeChar` on its outputs, which makes the escape
encoding a prefix code. -/
def unescapeFirst : List Char → Option (Nat × List Char)
  | [] => none
  | c :: rest =>
    if c = '\\' then
      match rest with
      | '"' :: r => some (34, r)
      | '\\' :: r => some (92, r)
      | 'n' :: r => some (10, r)
      | 'r' :: r => some (13, r)
      | 't' :: r => some (9, r)
      | 'u' :: h1 :: h2 :: h3 :: h4 :: r =>
        some (4096 * hexVal h1 + 256 * hexVal h2 + 16 * hexVal h3 + hexVal h4, r)
      | _ => none
    else some (c.toNat, rest)

theorem unescapeFirst_escapeChar (c : Char) (rest : List Char) :
    unescapeFirst (escapeChar c ++ rest) = some (c.toNat, rest) := by
  unfold escapeChar
  split_ifs with h1 h2 h3 h4 h5 h6 h7
  · subst h1; rfl
  · subst h2; rfl
  · subst h3; rfl
  · subst h4; rfl
  · subst h5; rfl
  · have h256 : c.toNat < 256 := by
      rcases h6 with h | h | h | h
      · omega
      · subst h; decide
      · subst h; decide
      · subst h; decide
    show some (4096 * hexVal '0' + 256 * hexVal '0' +
      16 * hexVal (hexDigitChar (c.toNat / 16)) + hexVal (hexDigitChar (c.toNat % 16)),
      rest) = some (c.toNat, rest)
    rw [hexVal_hexDigitChar _ (Nat.div_lt_of_lt_mul (by omega)),
      hexVal_hexDigitChar _ (Nat.mod_lt _ (by omega)),
      show hexVal '0' = 0 from rfl]
    simp only [Option.some.injEq, Prod.mk.injEq, and_true]
    omega
  · rcases h7 with h | h
    · show some (4096 * hexVal '2' + 256 * hexVal '0' +
        16 * hexVal '2' + hexVal (hexDigitChar (c.toNat % 16)), rest) = some (c.toNat, rest)
      rw [h]
      simp only [Option.some.injEq, Prod.mk.injEq, and_true]
      decide
    · show some (4096 * hexVal '2' + 256 * hexVal '0' +
        16 * hexVal '2' + hexVal (hexDigitChar (c.toNat % 16)), rest) = some (c.toNat, rest)
      rw [h]
      simp only [Option.some.injEq, Prod.mk.injEq, and_true]
      decide
  · show unescapeFirst (c :: rest) = some (c.toNat, rest)
    simp only [unescapeFirst]
    rw [if_neg h2]

theorem escapeChar_ne_nil (c : Char) : escapeChar c ≠ [] := by
  unfold escapeChar
  split_ifs <;> simp

theorem escapeList_inj : ∀ (xs ys : List Char),
    (xs.map escapeChar).flatten = (ys.map escapeChar).flatten → xs = ys
  | [], [] => fun _ => rfl
  | [], y :: ys => by
    intro h
    rw [List.map_nil, List.flatten_nil, List.map_cons, List.flatten_cons] at h
    cases hE : escapeChar y with
    | nil => exact absurd hE (escapeChar_ne_nil y)
    | cons a l => rw [hE] at h; simp at h
  | x :: xs, [] => by
    intro h
    rw [List.map_nil, List.flatten_nil, List.map_cons, List.flatten_cons] at h
    cases hE : escapeChar x with
    | nil => exact absurd hE (escapeChar_ne_nil x)
    | cons a l => rw [hE] at h; simp at h
  | x :: xs, y :: ys => by
    intro h
    rw [List.map_cons, List.flatten_cons, List.map_cons, List.flatten_cons] at h
    have h1 := unescapeFirst_escapeChar x ((xs.map escapeChar).flatten)
    have h2 := unescapeFirst_escapeChar y ((ys.map escapeChar).flatten)
    rw [h, h2] at h1
    simp only [Option.some.injEq, Prod.mk.injEq] at h1
    obtain ⟨hn, hr⟩ := h1
    have hxy : y = x := by
      have hcongr := congrArg Char.ofNat hn
      rwa [Char.ofNat_toNat, Char.ofNat_toNat] at hcongr
    rw [hxy, escapeList_inj xs ys hr.symm]

theorem escapeString_inj (s1 s2 : String) (h : escapeString s1 = escapeString s2) :
    s1 = s2 := by
  unfold escapeString at h
  have hdata := congrArg String.data h
  simp only [] at hdata
  injection hdata with _ htail
  exact string_ext (escapeList_inj s1.data s2.data (List.append_cancel_right htail))

/-! ## Content injectivity of the hashed pre-image -/

theorem string_append_cancel_left {a b c : String} (h : a ++ b = a ++ c) : b = c := by
  have hd := congrArg String.data h
  rw [string_data_append, string_data_append] at hd
  exact string_ext (List.append_cancel_left hd)

theorem string_append_cancel_right {a b c : String} (h : a ++ c = b ++ c) : a = b := by
  have hd := congrArg String.data h
  rw [string_data_append, string_data_append] at hd
  exact string_ext (List.append_cancel_right hd)

theorem marshalObj_cons (kv : String × Jval) (fs : List (String × Jval)) (h : fs ≠ []) :
    marshalObj (kv :: fs) =
      escapeString kv.1 ++ ":" ++ marshalJval kv.2 ++ "," ++ marshalObj fs := by
  obtain ⟨k, v⟩ := kv
  cases fs with
  | nil => exact absurd rfl h
  | cons f2 rest => rfl

theorem marshalObj_content_inj (u ts r c1 c2 : String) (T : List (String × Jval))
    (h : marshalObj (("uuid", Jval.jstr u) :: ("timestamp", Jval.jstr ts) ::
          ("role", Jval.jstr r) :: ("content", Jval.jstr c1) :: T) =
        marshalObj (("uuid", Jval.jstr u) :: ("timestamp", Jval.jstr ts) ::
          ("role", Jval.jstr r) :: ("content", Jval.jstr c2) :: T)) :
    c1 = c2 := by
  rw [marshalObj_cons _ _ (List.cons_ne_nil _ _), marshalObj_cons _ _ (List.cons_ne_nil _ _),
    marshalObj_cons _ _ (List.cons_ne_nil _ _), marshalObj_cons _ _ (List.cons_ne_nil _ _),
    marshalObj_cons _ _ (List.cons_ne_nil _ _), marshalObj_cons _ _ (List.cons_ne_nil _ _)] at h
  have h1 := string_append_cancel_left h
  have h2 := string_append_cancel_left h1
  have h3 := string_append_cancel_left h2
  cases T with
  | nil =>
    have h4 := string_append_cancel_left h3
    exact escapeString_inj _ _ h4
  | cons f2 rest =>
    rw [marshalObj_cons _ _ (List.cons_ne_nil _ _),
      marshalObj_cons _ _ (List.cons_ne_nil _ _)] at h3
    have h4 := string_append_cancel_right h3
    have h5 := string_append_cancel_right h4
    have h6 := string_append_cancel_left h5
    exact escapeString_inj _ _ h6

theorem marshalMessage_content_inj (m : Message) (c' : String)
    (h : marshalMessage m = marshalMessage { m with content := c' }) :
    m.content = c' := by
  simp only [marshalMessage, messageFields, marshalJval, List.append_assoc, List.cons_append,
    List.nil_append] at h
  have h1 := string_append_cancel_right h
  have h2 := string_append_cancel_left h1
  exact marshalObj_content_inj _ _ _ _ _ _ h2

theorem foldl_join_shift (a : String) (xs : List String) : ∀ (b : String),
    xs.foldl (fun acc line => acc ++ "\n" ++ line) (a ++ b) =
      a ++ xs.foldl (fun acc line => acc ++ "\n" ++ line) b := by
  induction xs with
  | nil => intro b; rfl
  | cons x xs ih =>
    intro b
    simp only [List.foldl_cons]
    rw [String.append_assoc a b "\n", String.append_assoc a (b ++ "\n") x]
    exact ih ((b ++ "\n") ++ x)

theorem joinLines_cons_cons (l1 l2 : String) (rest : List String) :
    joinLines (l1 :: l2 :: rest) = l1 ++ "\n" ++ joinLines (l2 :: rest) := by
  show (l2 :: rest).foldl _ l1 = _
  simp only [List.foldl_cons]
  exact foldl_join_shift (l1 ++ "\n") rest l2

theorem nlSplit (a1 : List Char) : ∀ (a2 b1 b2 : List Char),
    '\n' ∉ a1 → '\n' ∉ a2 → a1 ++ '\n' :: b1 = a2 ++ '\n' :: b2 → a1 = a2 ∧ b1 = b2 := by
  induction a1 with
  | nil =>
    intro a2 b1 b2 _ h2 heq
    cases a2 with
    | nil => simpa using heq
    | cons c cs =>
      rw [List.nil_append, List.cons_append] at heq
      injection heq with hc _
      apply absurd _ h2
      rw [← hc]
      exact List.mem_cons_self _ _
  | cons c cs ih =>
    intro a2 b1 b2 h1 h2 heq
    cases a2 with
    | nil =>
      rw [List.nil_append, List.cons_append] at heq
      injection heq with hc _
      apply absurd _ h1
      rw [hc]
      exact List.mem_cons_self _ _
    | cons d ds =>
      rw [List.cons_append, List.cons_append] at heq
      injection heq with hcd htail
      obtain ⟨he, hb⟩ := ih ds b1 b2 (fun hm => h1 (List.mem_cons_of_mem _ hm))
        (fun hm => h2 (List.mem_cons_of_mem _ hm)) htail
      exact ⟨by rw [hcd, he], hb⟩

theorem joinLines_inj (L1 : List String) : ∀ (L2 : List String),
    L1.length = L2.length →
    (∀ s ∈ L1, '\n' ∉ s.data) → (∀ s ∈ L2, '\n' ∉ s.data) →
    joinLines L1 = joinLines L2 → L1 = L2 := by
  induction L1 with
  | nil =>
    intro L2 hlen _ _ _
    cases L2 with
    | nil => rfl
    | cons x xs => simp at hlen
  | cons l1 rest1 ih =>
    intro L2 hlen h1 h2 heq
    cases L2 with
    | nil => simp at hlen
    | cons l2 rest2 =>
      cases rest1 with
      | nil =>
        cases rest2 with
        | nil =>
          have : l1 = l2 := heq
          rw [this]
        | cons x xs => simp at hlen
      | cons m1 rest1' =>
        cases rest2 with
        | nil => simp at hlen
        | cons m2 rest2' =>
          rw [joinLines_cons_cons, joinLines_cons_cons] at heq
          have hdata := congrArg String.data heq
          rw [string_data_append, string_data_append, string_data_append,
            string_data_append, show ("\n" : String).data = ['\n'] from rfl,
            List.append_assoc, List.append_assoc,
            List.singleton_append, List.singleton_append] at hdata
          obtain ⟨hhead, htail⟩ := nlSplit l1.data l2.data _ _
            (h1 l1 (List.mem_cons_self _ _)) (h2 l2 (List.mem_cons_self _ _)) hdata
          have hl12 : l1 = l2 := string_ext hhead
          have hJ : joinLines (m1 :: rest1') = joinLines (m2 :: rest2') := string_ext htail
          have hrest := ih (m2 :: rest2') (by simpa using hlen)
            (fun s hs => h1 s (List.mem_cons_of_mem _ hs))
            (fun s hs => h2 s (List.mem_cons_of_mem _ hs)) hJ
          rw [hl12, hrest]

theorem getLast?_map_comm {α β : Type} (f : α → β) : ∀ (l : List α),
    (l.map f).getLast? = l.getLast?.map f
  | [] => rfl
  | [a] => rfl
  | a :: b :: l => by
    rw [List.map_cons, List.map_cons, List.getLast?_cons_cons, List.getLast?_cons_cons,
      ← List.map_cons]
    exact getLast?_map_comm f (b :: l)

theorem calculateTotalTokens_eq (msgs : List Message) :
    calculateTotalTokens msgs = (msgs.map Message.tokens).foldl (fun a b => a + b) 0 := by
  rw [List.foldl_map]
  rfl

/-- The metadata record depends on the messages only through their
timestamps, models and token counts — never through their contents. -/
theorem fileHashMetadata_congr (file : FileInfo) (ord : List String)
    (m0 m0' : Message) (rest rest' : List Message)
    (hts : (m0 :: rest).map Message.timestamp = (m0' :: rest').map Message.timestamp)
    (hmodel : (m0 :: rest).map Message.model = (m0' :: rest').map Message.model)
    (htok : (m0 :: rest).map Message.tokens = (m0' :: rest').map Message.tokens) :
    fileHashMetadata file m0 rest ord = fileHashMetadata file m0' rest' ord := by
  have hts0 : m0.timestamp = m0'.timestamp := by
    rw [List.map_cons, List.map_cons] at hts
    injection hts
  have hlast : ((m0 :: rest).getLast (List.cons_ne_nil _ _)).timestamp =
      ((m0' :: rest').getLast (List.cons_ne_nil _ _)).timestamp := by
    have h1 : ((m0 :: rest).map Message.timestamp).getLast? =
        ((m0' :: rest').map Message.timestamp).getLast? := by rw [hts]
    rw [getLast?_map_comm, getLast?_map_comm,
      List.getLast?_eq_getLast (m0 :: rest) (List.cons_ne_nil _ _),
      List.getLast?_eq_getLast (m0' :: rest') (List.cons_ne_nil _ _)] at h1
    simp only [Option.map_some'] at h1
    injection h1
  have hlen : (m0 :: rest).length = (m0' :: rest').length := by
    have := congrArg List.length hts
    simpa using this
  have hmodels : extractModels (m0 :: rest) ord = extractModels (m0' :: rest') ord := by
    unfold extractModels extractModelsSet
    rw [hmodel]
  have htokens : calculateTotalTokens (m0 :: rest) = calculateTotalTokens (m0' :: rest') := by
    rw [calculateTotalTokens_eq, calculateTotalTokens_eq, htok]
  simp only [fileHashMetadata]
  rw [hts0, hlast, hlen, hmodels, htokens]

/-- The JSONL content `CalculateFileHash` hashes, as a function of the
whole parsed message list (`none` when the list is empty and the function
errors instead). -/
def sessionContent (file : FileInfo) (messages : List Message)
    (modelOrder : List String) : Option String :=
  match messages with
  | [] => none
  | m0 :: rest => some (sessionJSONL file m0 rest modelOrder)

theorem sessionJSONL_lines_inj (file : FileInfo) (ord : List String)
    (m0 m0' : Message) (rest rest' : List Message)
    (hts : (m0 :: rest).map Message.timestamp = (m0' :: rest').map Message.timestamp)
    (hmodel : (m0 :: rest).map Message.model = (m0' :: rest').map Message.model)
    (htok : (m0 :: rest).map Message.tokens = (m0' :: rest').map Message.tokens)
    (heq : sessionJSONL file m0 rest ord = sessionJSONL file m0' rest' ord) :
    (m0 :: rest).map marshalMessage = (m0' :: rest').map marshalMessage := by
  have hmeta : metadataLine file m0 rest ord = metadataLine file m0' rest' ord := by
    unfold metadataLine marshalGoMap
    rw [fileHashMetadata_congr file ord m0 m0' rest rest' hts hmodel htok]
  unfold sessionJSONL at heq
  have hlen : (metadataLine file m0 rest ord :: (m0 :: rest).map marshalMessage).length =
      (metadataLine file m0' rest' ord :: (m0' :: rest').map marshalMessage).length := by
    simp only [List.length_cons, List.length_map]
    have := congrArg List.length hts
    simpa using this
  have hnl1 : ∀ s ∈ metadataLine file m0 rest ord :: (m0 :: rest).map marshalMessage,
      '\n' ∉ s.data := by
    intro s hs
    rcases List.mem_cons.mp hs with h | h
    · subst h; exact marshalJval_no_newline _
    · obtain ⟨msg, _, rfl⟩ := List.mem_map.mp h
      exact marshalJval_no_newline _
  have hnl2 : ∀ s ∈ metadataLine file m0' rest' ord :: (m0' :: rest').map marshalMessage,
      '\n' ∉ s.data := by
    intro s hs
    rcases List.mem_cons.mp hs with h | h
    · subst h; exact marshalJval_no_newline _
    · obtain ⟨msg, _, rfl⟩ := List.mem_map.mp h
      exact marshalJval_no_newline _
  have hlists := joinLines_inj _ _ hlen hnl1 hnl2 heq
  injection hlists

/-- Changing one message's content (all else equal) changes the JSONL
pre-image that `CalculateFileHash` hashes. -/
theorem sessionContent_content_inj (file : FileInfo) (ord : List String)
    (pre post : List Message) (m : Message) (c' : String) (hne : m.content ≠ c') :
    sessionContent file (pre ++ m :: post) ord ≠
      sessionContent file (pre ++ { m with content := c' } :: post) ord := by
  intro heq
  apply hne
  have hts : (pre ++ m :: post).map Message.timestamp =
      (pre ++ { m with content := c' } :: post).map Message.timestamp := by
    simp [List.map_append]
  have hmodel : (pre ++ m :: post).map Message.model =
      (pre ++ { m with content := c' } :: post).map Message.model := by
    simp [List.map_append]
  have htok : (pre ++ m :: post).map Message.tokens =
      (pre ++ { m with content := c' } :: post).map Message.tokens := by
    simp [List.map_append]
  have hmm : (pre ++ m :: post).map marshalMessage =
      (pre ++ { m with content := c' } :: post).map marshalMessage := by
    cases pre with
    | nil =>
      simp only [List.nil_append] at heq hts hmodel htok ⊢
      simp only [sessionContent, Option.some.injEq] at heq
      exact sessionJSONL_lines_inj file ord m { m with content := c' } post post
        hts hmodel htok heq
    | cons p pt =>
      rw [List.cons_append, List.cons_append] at heq hts hmodel htok ⊢
      simp only [sessionContent, Option.some.injEq] at heq
      exact sessionJSONL_lines_inj file ord p p (pt ++ m :: post)
        (pt ++ { m with content := c' } :: post) hts hmodel htok heq
  rw [List.map_append, List.map_append, List.map_cons, List.map_cons] at hmm
  have h2 := List.append_cancel_left hmm
  injection h2 with h3 _
  exact marshalMessage_content_inj m c' h3

/-! ## State store (state.go)

`SyncState.Sessions` is a Go `map[string]SessionState`, embedded as an
association list with distinct keys; `json.MarshalIndent` serializes it
with sorted keys, `json.Unmarshal` rebuilds it by field name.  The file
system is a flat path-to-contents map, and `time.Now()` is the explicit
`now` parameter. -/

/-- Go struct `sync.SessionState` (state.go). -/
structure SessionState where
  lastSyncedUUID : String
  lastSyncAt : String
  messageCount : Int
deriving Repr, DecidableEq

/-- Go struct `sync.SyncState` (state.go); the `sessions` map as an
association list with distinct keys. -/
structure SyncState where
  sessions : List (String × SessionState)
  lastSyncAt : String
deriving Repr, DecidableEq

/-- First-match association lookup (Go map read). -/
def lookupKey {α : Type} (k : String) : List (String × α) → Option α
  | [] => none
  | (k2, v) :: rest => if k2 = k then some v else lookupKey k rest

/-- Go map assignment `m[k] = v`: replace an existing entry, else add. -/
def assocSet {α : Type} (k : String) (v : α) : List (String × α) → List (String × α)
  | [] => [(k, v)]
  | (k2, v2) :: rest =>
    if k2 = k then (k2, v) :: rest else (k2, v2) :: assocSet k v rest

/-- Go `(s *SyncState) GetLastSyncedUUID` (state.go). -/
def SyncState.GetLastSyncedUUID (s : SyncState) (sessionID : String) : String :=
  match lookupKey sessionID s.sessions with
  | some session => session.lastSyncedUUID
  | none => ""

/-- Go `(s *SyncState) UpdateSession` (state.go). -/
def SyncState.UpdateSession (s : SyncState) (sessionID lastUUID : String)
    (messageCount : Int) (now : String) : SyncState :=
  let entry : SessionState :=
    { lastSyncedUUID := lastUUID, lastSyncAt := now, messageCount := messageCount }
  { s with sessions := assocSet sessionID entry s.sessions }

/-- Flat file-system model: path to contents. -/
def FS := List (String × String)

def fsRead (fs : FS) (path : String) : Option String :=
  lookupKey path fs

def fsWrite (fs : FS) (path data : String) : FS :=
  assocSet path data fs

def fsErase : FS → String → FS
  | [], _ => []
  | (p, d) :: rest, path => if p = path then rest else (p, d) :: fsErase rest path

/-- `os.Rename src dst` on the model (success path). -/
def fsRename (fs : FS) (src dst : String) : FS :=
  match fsRead fs src with
  | none => fs
  | some data => fsWrite (fsErase fs src) dst data

/-- `json.Marshal` encoding of a `SessionState` (struct: declared field
order, no omitempty). -/
def encodeSessionState (s : SessionState) : Jval :=
  .jobj [("last_synced_uuid", .jstr s.lastSyncedUUID),
         ("last_sync_at", .jstr s.lastSyncAt),
         ("message_count", .jnum s.messageCount)]

/-- `json.Marshal` encoding of a `SyncState`: struct fields in declared
order, the sessions map with sorted keys. -/
def encodeSyncState (s : SyncState) : Jval :=
  .jobj [("sessions", .jobj (sortFields
            (s.sessions.map (fun kv => (kv.1, encodeSessionState kv.2))))),
         ("last_sync_at", .jstr s.lastSyncAt)]

/-- Two-space indentation prefix at depth `d` (`json.MarshalIndent(s, "",
"  ")`). -/
def indentStr (d : Nat) : String :=
  ⟨List.replicate (2 * d) ' '⟩

mutual

/-- Go `json.MarshalIndent` rendering: objects and arrays spread over
lines, empty ones compact, scalars as in compact marshaling. -/
def printIndent : Jval → Nat → String
  | .jobj [], _ => "\x7b\x7d"
  | .jobj fs, d => "\x7b\n" ++ printMembers fs (d + 1) ++ "\n" ++ indentStr d ++ "\x7d"
  | .jarr [], _ => "[]"
  | .jarr es, d => "[\n" ++ printElems es (d + 1) ++ "\n" ++ indentStr d ++ "]"
  | v, _ => marshalJval v

def printMembers : List (String × Jval) → Nat → String
  | [], _ => ""
  | [(k, v)], d => indentStr d ++ escapeString k ++ ": " ++ printIndent v d
  | (k, v) :: rest, d =>
    indentStr d ++ escapeString k ++ ": " ++ printIndent v d ++ ",\n" ++ printMembers rest d

def printElems : List Jval → Nat → String
  | [], _ => ""
  | [v], d => indentStr d ++ printIndent v d
  | v :: rest, d => indentStr d ++ printIndent v d ++ ",\n" ++ printElems rest d

end

/-- `json.MarshalIndent(s, "", "  ")` of a `SyncState`. -/
def marshalIndentState (s : SyncState) : String :=
  printIndent (encodeSyncState s) 0

/-- Go `(s *SyncState) Save` (state.go), success path: stamp `lastSyncAt`,
marshal with indentation, write a `.tmp` sibling, rename over the target.
Returns the updated file system and the stamped state. -/
def SyncState.Save (s : SyncState) (path now : String) (fs : FS) : FS × SyncState :=
  let st2 := { s with lastSyncAt := now }
  let data := marshalIndentState st2
  let tmpPath := path ++ ".tmp"
  let fs1 := fsWrite fs tmpPath data
  (fsRename fs1 tmpPath path, st2)

/-- JSON whitespace skipping. -/
def skipWs : List Char → List Char
  | c :: rest =>
    if c = ' ' ∨ c = '\t' ∨ c = '\n' ∨ c = '\x0d' then skipWs rest else c :: rest
  | [] => []

/-- Leading decimal digits of the input, as digit values. -/
def takeDigits : List Char → List Nat × List Char
  | c :: rest =>
    if 48 ≤ c.toNat ∧ c.toNat ≤ 57 then
      ((c.toNat - 48) :: (takeDigits rest).1, (takeDigits rest).2)
    else ([], c :: rest)
  | [] => ([], [])

def digitsToNat (ds : List Nat) : Nat :=
  ds.foldl (fun a d => 10 * a + d) 0

/-- JSON number parsing, restricted to the integers the encoder emits. -/
def parseNumber (s : List Char) : Option (Jval × List Char) :=
  match s with
  | [] => none
  | c :: rest =>
    if c = '-' then
      if (takeDigits rest).1 = [] then none
      else some (.jnum (-(digitsToNat (takeDigits rest).1 : Int)), (takeDigits rest).2)
    else
      if (takeDigits (c :: rest)).1 = [] then none
      else some (.jnum ((digitsToNat (takeDigits (c :: rest)).1 : Int)),
        (takeDigits (c :: rest)).2)

/-- JSON string-body parsing (after the opening quote), via the escape
decoder `unescapeFirst`; handles exactly the escapes the encoder
produces. -/
def parseStringBody (fuel : Nat) (s : List Char) : Option (String × List Char) :=
  match fuel with
  | 0 => none
  | fuel' + 1 =>
    match s with
    | [] => none
    | c :: rest =>
      if c = '"' then some ("", rest)
      else
        match unescapeFirst (c :: rest) with
        | none => none
        | some (code, r) =>
          (parseStringBody fuel' r).map (fun p => (⟨Char.ofNat code :: p.1.data⟩, p.2))

mutual

/-- Recursive-descent JSON value parser (Go `encoding/json` grammar over
the values this system produces), fuel-driven for structural recursion. -/
def parseVal : Nat → List Char → Option (Jval × List Char)
  | 0, _ => none
  | fuel + 1, s =>
    match skipWs s with
    | [] => none
    | c :: rest =>
      if c = '"' then
        (parseStringBody (rest.length + 1) rest).map (fun p => (.jstr p.1, p.2))
      else if c = '[' then
        match skipWs rest with
        | [] => (parseElems fuel rest).map (fun p => (.jarr p.1, p.2))
        | c2 :: r2 =>
          if c2 = ']' then some (.jarr [], r2)
          else (parseElems fuel rest).map (fun p => (.jarr p.1, p.2))
      else if c = '\x7b' then
        match skipWs rest with
        | [] => (parseMembers fuel rest).map (fun p => (.jobj p.1, p.2))
        | c2 :: r2 =>
          if c2 = '\x7d' then some (.jobj [], r2)
          else (parseMembers fuel rest).map (fun p => (.jobj p.1, p.2))
      else if c = 't' then
        match rest with
        | 'r' :: 'u' :: 'e' :: r => some (.jbool true, r)
        | _ => none
      else if c = 'f' then
        match rest with
        | 'a' :: 'l' :: 's' :: 'e' :: r => some (.jbool false, r)
        | _ => none
      else if c = 'n' then
        match rest with
        | 'u' :: 'l' :: 'l' :: r => some (.jnull, r)
        | _ => none
      else parseNumber (c :: rest)

def parseElems : Nat → List Char → Option (List Jval × List Char)
  | 0, _ => none
  | fuel + 1, s =>
    match parseVal fuel s with
    | none => none
    | some (v, r) =>
      match skipWs r with
      | [] => none
      | c :: r2 =>
        if c = ',' then (parseElems fuel r2).map (fun p => (v :: p.1, p.2))
        else if c = ']' then some ([v], r2)
        else none

def parseMembers : Nat → List Char → Option (List (String × Jval) × List Char)
  | 0, _ => none
  | fuel + 1, s =>
    match skipWs s with
    | [] => none
    | c :: rest =>
      if c = '"' then
        (match parseStringBody (rest.length + 1) rest with
        | none => none
        | some (k, r) =>
          match skipWs r with
          | [] => none
          | c2 :: r2 =>
            if c2 = ':' then
              (match parseVal fuel r2 with
              | none => none
              | some (v, r3) =>
                match skipWs r3 with
                | [] => none
                | c3 :: r4 =>
                  if c3 = ',' then
                    (parseMembers fuel r4).map (fun p => ((k, v) :: p.1, p.2))
                  else if c3 = '\x7d' then some ([(k, v)], r4)
                  else none)
            else none)
      else none

end

/-- Full-input JSON parse (`json.Unmarshal`'s scanner: one value, then only
whitespace). -/
def parseJson (s : String) : Option Jval :=
  match parseVal (s.data.length + 1) s.data with
  | some (v, rest) => if skipWs rest = [] then some v else none
  | none => none

/-- `json.Unmarshal` field assignment into a `SessionState`: known keys set
the matching field (last occurrence wins), unknown keys are ignored,
mismatched types fail. -/
def applySessionField (acc : SessionState) : String × Jval → Option SessionState
  | ("last_synced_uuid", .jstr v) => some { acc with lastSyncedUUID := v }
  | ("last_synced_uuid", _) => none
  | ("last_sync_at", .jstr v) => some { acc with lastSyncAt := v }
  | ("last_sync_at", _) => none
  | ("message_count", .jnum n) => some { acc with messageCount := n }
  | ("message_count", _) => none
  | (_, _) => some acc

def decodeSessionState (j : Jval) : Option SessionState :=
  match j with
  | .jnull => some { lastSyncedUUID := "", lastSyncAt := "", messageCount := 0 }
  | .jobj fields =>
    fields.foldlM applySessionField
      { lastSyncedUUID := "", lastSyncAt := "", messageCount := 0 }
  | _ => none

/-- Decode the entries of the sessions object, in order. -/
def decodeSessionsObj : List (String × Jval) → Option (List (String × SessionState))
  | [] => some []
  | (k, jv) :: rest =>
    match decodeSessionState jv with
    | none => none
    | some v =>
      match decodeSessionsObj rest with
      | none => none
      | some tail => some ((k, v) :: tail)

def applyStateField (acc : SyncState) : String × Jval → Option SyncState
  | ("sessions", .jobj entries) =>
    match decodeSessionsObj entries with
    | none => none
    | some sessions => some { acc with sessions := sessions }
  | ("sessions", .jnull) => some acc
  | ("sessions", _) => none
  | ("last_sync_at", .jstr v) => some { acc with lastSyncAt := v }
  | ("last_sync_at", _) => none
  | (_, _) => some acc

/-- `json.Unmarshal` of a `SyncState` (zero value, then field
assignments); a `nil`/absent sessions map stays the empty list, matching
the `state.Sessions == nil` normalization in `LoadState`. -/
def decodeSyncState (j : Jval) : Option SyncState :=
  match j with
  | .jobj fields => fields.foldlM applyStateField { sessions := [], lastSyncAt := "" }
  | _ => none

/-- Go `LoadState` (state.go): missing file is a fresh empty state, an
unparsable file is an error. -/
def LoadState (path : String) (fs : FS) : Except String SyncState :=
  match fsRead fs path with
  | none => .ok { sessions := [], lastSyncAt := "" }
  | some data =>
    match parseJson data with
    | none => .error "parsing state file"
    | some j =>
      match decodeSyncState j with
      | none => .error "parsing state file"
      | some st => .ok st

/-! ## Parser round-trip: primitives -/

theorem skipWs_ws (c : Char) (s : List Char)
    (h : c = ' ' ∨ c = '\t' ∨ c = '\n' ∨ c = '\x0d') : skipWs (c :: s) = skipWs s := by
  rw [skipWs]
  rw [if_pos h]

theorem skipWs_nonws (c : Char) (s : List Char)
    (h : ¬(c = ' ' ∨ c = '\t' ∨ c = '\n' ∨ c = '\x0d')) : skipWs (c :: s) = c :: s := by
  rw [skipWs]
  rw [if_neg h]

theorem skipWs_spaces (n : Nat) : ∀ (s : List Char),
    skipWs (List.replicate n ' ' ++ s) = skipWs s := by
  induction n with
  | zero => intro s; rfl
  | succ n ih =>
    intro s
    rw [List.replicate_succ, List.cons_append, skipWs_ws _ _ (Or.inl rfl)]
    exact ih s

theorem skipWs_indent (d : Nat) (s : List Char) :
    skipWs ((indentStr d).data ++ s) = skipWs s :=
  skipWs_spaces (2 * d) s

theorem digitChar_toNat (k : Nat) (h : k < 10) : (digitChar k).toNat = 48 + k := by
  interval_cases k <;> decide

theorem natToDecimal_digits (n : Nat) :
    ∀ c ∈ natToDecimal n, 48 ≤ c.toNat ∧ c.toNat ≤ 57 := by
  intro c hc
  rw [natToDecimal, List.mem_reverse] at hc
  obtain ⟨k, hk, rfl⟩ := natToDecimalRev_digits _ _ _ hc
  rw [digitChar_toNat k hk]
  omega

theorem natToDecimalRev_ne_nil (fuel n : Nat) (h : n < fuel) :
    natToDecimalRev fuel n ≠ [] := by
  cases fuel with
  | zero => omega
  | succ f =>
    rw [natToDecimalRev]
    split <;> simp

theorem natToDecimal_ne_nil (n : Nat) : natToDecimal n ≠ [] := by
  rw [natToDecimal]
  intro h
  exact natToDecimalRev_ne_nil (n + 1) n (by omega) (by simpa using h)

/-- `rest` does not begin with a decimal digit (so number parsing stops
exactly at the printed digits). -/
def noDigitStart : List Char → Prop
  | [] => True
  | c :: _ => ¬(48 ≤ c.toNat ∧ c.toNat ≤ 57)

theorem takeDigits_stop (rest : List Char) (h : noDigitStart rest) :
    takeDigits rest = ([], rest) := by
  cases rest with
  | nil => rfl
  | cons c r =>
    rw [takeDigits]
    rw [if_neg h]

theorem takeDigits_append (D : List Char) : ∀ (rest : List Char),
    (∀ c ∈ D, 48 ≤ c.toNat ∧ c.toNat ≤ 57) → noDigitStart rest →
    takeDigits (D ++ rest) = (D.map (fun c => c.toNat - 48), rest) := by
  induction D with
  | nil => intro rest _ h; exact takeDigits_stop rest h
  | cons c D ih =>
    intro rest hd h
    rw [List.cons_append, takeDigits,
      if_pos (hd c (List.mem_cons_self _ _)),
      ih rest (fun x hx => hd x (List.mem_cons_of_mem _ hx)) h]
    rfl

theorem digitsToNat_append_single (A : List Nat) (x : Nat) :
    digitsToNat (A ++ [x]) = 10 * digitsToNat A + x := by
  unfold digitsToNat
  rw [List.foldl_append]
  rfl

theorem digitsToNat_natToDecimalRev (fuel : Nat) : ∀ (n : Nat), n < fuel →
    digitsToNat (((natToDecimalRev fuel n).reverse).map (fun c => c.toNat - 48)) = n := by
  induction fuel with
  | zero => intro n h; omega
  | succ f ih =>
    intro n h
    rw [natToDecimalRev]
    split
    · next hlt =>
      show digitsToNat [(digitChar n).toNat - 48] = n
      rw [show digitsToNat [(digitChar n).toNat - 48] = 10 * 0 + ((digitChar n).toNat - 48)
        from rfl]
      rw [digitChar_toNat n hlt]
      omega
    · next hge =>
      rw [List.reverse_cons, List.map_append]
      rw [show (List.map (fun c => c.toNat - 48) [digitChar (n % 10)]) =
        [(digitChar (n % 10)).toNat - 48] from rfl]
      rw [digitsToNat_append_single, ih (n / 10) (by omega),
        digitChar_toNat (n % 10) (by omega)]
      omega

theorem digitsToNat_natToDecimal (n : Nat) :
    digitsToNat ((natToDecimal n).map (fun c => c.toNat - 48)) = n :=
  digitsToNat_natToDecimalRev (n + 1) n (by omega)

theorem parseNumber_round (n : Int) (rest : List Char) (hrest : noDigitStart rest) :
    parseNumber (intToDecimal n ++ rest) = some (.jnum n, rest) := by
  unfold intToDecimal
  split
  · next hneg =>
    rw [List.cons_append]
    have h1 : parseNumber ('-' :: (natToDecimal n.natAbs ++ rest)) =
        (if (takeDigits (natToDecimal n.natAbs ++ rest)).1 = [] then none
         else some (.jnum (-(digitsToNat (takeDigits (natToDecimal n.natAbs ++ rest)).1 : Int)),
           (takeDigits (natToDecimal n.natAbs ++ rest)).2)) := rfl
    rw [h1, takeDigits_append _ rest (natToDecimal_digits _) hrest,
      if_neg (by simp [natToDecimal_ne_nil])]
    simp only [digitsToNat_natToDecimal, Option.some.injEq, Prod.mk.injEq,
      Jval.jnum.injEq, and_true]
    omega
  · next hpos =>
    obtain ⟨d, ds, hshape⟩ : ∃ d ds, natToDecimal n.toNat = d :: ds := by
      cases hD : natToDecimal n.toNat with
      | nil => exact absurd hD (natToDecimal_ne_nil _)
      | cons d ds => exact ⟨d, ds, rfl⟩
    have hdig := natToDecimal_digits n.toNat
    rw [hshape] at hdig
    have hd0 := hdig d (List.mem_cons_self _ _)
    rw [hshape, List.cons_append]
    have h1 : parseNumber (d :: (ds ++ rest)) =
        (if d = '-' then
          if (takeDigits (ds ++ rest)).1 = [] then none
          else some (.jnum (-(digitsToNat (takeDigits (ds ++ rest)).1 : Int)),
            (takeDigits (ds ++ rest)).2)
         else
          if (takeDigits (d :: (ds ++ rest))).1 = [] then none
          else some (.jnum ((digitsToNat (takeDigits (d :: (ds ++ rest))).1 : Int)),
            (takeDigits (d :: (ds ++ rest))).2)) := rfl
    rw [h1, if_neg (by intro hc; rw [hc] at hd0; revert hd0; decide)]
    rw [show (d :: (ds ++ rest)) = (d :: ds) ++ rest from rfl, ← hshape,
      takeDigits_append _ rest (natToDecimal_digits _) hrest]
    rw [if_neg (by simp [natToDecimal_ne_nil])]
    simp only [digitsToNat_natToDecimal, Option.some.injEq, Prod.mk.injEq,
      Jval.jnum.injEq, and_true]
    omega

theorem escapeChar_shape (c : Char) :
    (escapeChar c = [c] ∧ c ≠ '"' ∧ c ≠ '\\') ∨ (∃ l, escapeChar c = '\\' :: l) := by
  unfold escapeChar
  split_ifs with h1 h2 h3 h4 h5 h6 h7
  · exact Or.inr ⟨_, rfl⟩
  · exact Or.inr ⟨_, rfl⟩
  · exact Or.inr ⟨_, rfl⟩
  · exact Or.inr ⟨_, rfl⟩
  · exact Or.inr ⟨_, rfl⟩
  · exact Or.inr ⟨_, rfl⟩
  · exact Or.inr ⟨_, rfl⟩
  · exact Or.inl ⟨rfl, h1, h2⟩

theorem parseStringBody_round (cs : List Char) : ∀ (fuel : Nat) (rest : List Char),
    cs.length < fuel →
    parseStringBody fuel ((cs.map escapeChar).flatten ++ '"' :: rest) = some (⟨cs⟩, rest) := by
  induction cs with
  | nil =>
    intro fuel rest hf
    cases fuel with
    | zero => omega
    | succ f =>
      rw [List.map_nil, List.flatten_nil, List.nil_append]
      rfl
  | cons c cs ih =>
    intro fuel rest hf
    cases fuel with
    | zero => omega
    | succ f =>
      rw [List.map_cons, List.flatten_cons, List.append_assoc]
      have hu := unescapeFirst_escapeChar c ((cs.map escapeChar).flatten ++ '"' :: rest)
      have hih := ih f rest (by simp at hf; omega)
      rcases escapeChar_shape c with ⟨hS, hq, _⟩ | ⟨l, hS⟩
      · rw [hS] at hu ⊢
        rw [List.singleton_append] at hu ⊢
        rw [parseStringBody, if_neg hq]
        simp only [hu, hih, Option.map_some', Char.ofNat_toNat]
      · rw [hS] at hu ⊢
        rw [List.cons_append] at hu ⊢
        rw [parseStringBody, if_neg (by decide)]
        simp only [hu, hih, Option.map_some', Char.ofNat_toNat]

/-! ## Parser round-trip: the printer inverts -/

mutual

/-- Node count of a JSON value: a fuel bound for the parser. -/
def jsizeV : Jval → Nat
  | .jnull => 1
  | .jbool _ => 1
  | .jnum _ => 1
  | .jstr _ => 1
  | .jobj fs => 1 + jsizeM fs
  | .jarr es => 1 + jsizeL es

def jsizeL : List Jval → Nat
  | [] => 0
  | v :: rest => 1 + jsizeV v + jsizeL rest

def jsizeM : List (String × Jval) → Nat
  | [] => 0
  | (_, v) :: rest => 1 + jsizeV v + jsizeM rest

end

/-- JSON whitespace characters. -/
def wsChar (c : Char) : Prop :=
  c = ' ' ∨ c = '\t' ∨ c = '\n' ∨ c = '\x0d'

instance : DecidablePred wsChar := fun c =>
  inferInstanceAs (Decidable (c = ' ' ∨ c = '\t' ∨ c = '\n' ∨ c = '\x0d'))

theorem skipWs_pre (pre : List Char) (h : ∀ c ∈ pre, wsChar c) :
    ∀ (s : List Char), skipWs (pre ++ s) = skipWs s := by
  induction pre with
  | nil => intro s; rfl
  | cons c cs ih =>
    intro s
    rw [List.cons_append, skipWs_ws _ _ (h c (List.mem_cons_self _ _))]
    exact ih (fun x hx => h x (List.mem_cons_of_mem _ hx)) s

theorem indent_ws (d : Nat) : ∀ c ∈ (indentStr d).data, wsChar c := by
  intro c hc
  have : c = ' ' := List.eq_of_mem_replicate hc
  exact Or.inl this

theorem escapeFlatten_le (cs : List Char) :
    cs.length ≤ ((cs.map escapeChar).flatten).length := by
  induction cs with
  | nil => simp
  | cons c cs ih =>
    rw [List.map_cons, List.flatten_cons, List.length_append, List.length_cons]
    have : 1 ≤ (escapeChar c).length := by
      cases hE : escapeChar c with
      | nil => exact absurd hE (escapeChar_ne_nil c)
      | cons a l => simp
    omega

/-- The first character of a printed value: never whitespace, a digit
context closer, or an object/array closer. -/
theorem printIndent_head (v : Jval) (d : Nat) :
    ∃ c t, (printIndent v d).data = c :: t ∧ ¬wsChar c ∧ c ≠ ']' ∧ c ≠ '\x7d' := by
  cases v with
  | jnull => exact ⟨'n', _, rfl, by decide, by decide, by decide⟩
  | jbool b =>
    cases b
    · exact ⟨'f', _, rfl, by decide, by decide, by decide⟩
    · exact ⟨'t', _, rfl, by decide, by decide, by decide⟩
  | jstr s => exact ⟨'"', _, rfl, by decide, by decide, by decide⟩
  | jarr es =>
    cases es with
    | nil => exact ⟨'[', _, rfl, by decide, by decide, by decide⟩
    | cons e es => exact ⟨'[', _, rfl, by decide, by decide, by decide⟩
  | jobj fs =>
    cases fs with
    | nil => exact ⟨'\x7b', _, rfl, by decide, by decide, by decide⟩
    | cons f fs => exact ⟨'\x7b', _, rfl, by decide, by decide, by decide⟩
  | jnum n =>
    show ∃ c t, intToDecimal n = c :: t ∧ _
    unfold intToDecimal
    split
    · exact ⟨'-', _, rfl, by decide, by decide, by decide⟩
    · obtain ⟨dg, ds, hshape⟩ : ∃ dg ds, natToDecimal n.toNat = dg :: ds := by
        cases hD : natToDecimal n.toNat with
        | nil => exact absurd hD (natToDecimal_ne_nil _)
        | cons dg ds => exact ⟨dg, ds, rfl⟩
      have hdg := natToDecimal_digits n.toNat dg (by rw [hshape]; exact List.mem_cons_self _ _)
      refine ⟨dg, ds, hshape, ?_, ?_, ?_⟩
      · intro hws
        rcases hws with h | h | h | h <;> (rw [h] at hdg; revert hdg; decide)
      · intro hc; rw [hc] at hdg; revert hdg; decide
      · intro hc; rw [hc] at hdg; revert hdg; decide

theorem noDigitStart_cons (c : Char) (t : List Char)
    (h : ¬(48 ≤ c.toNat ∧ c.toNat ≤ 57)) : noDigitStart (c :: t) := h

instance : ∀ l, Decidable (noDigitStart l)
  | [] => isTrue trivial
  | _ :: _ => inferInstanceAs (Decidable ¬_)

theorem parseVal_succ_ws (f : Nat) (s1 s2 : List Char) (h : skipWs s1 = skipWs s2) :
    parseVal (f + 1) s1 = parseVal (f + 1) s2 := by
  conv_lhs => rw [parseVal]
  conv_rhs => rw [parseVal]
  rw [h]

theorem intToDecimal_head (n : Int) : ∃ c t, intToDecimal n = c :: t ∧ ¬wsChar c ∧
    c ≠ '"' ∧ c ≠ '[' ∧ c ≠ '\x7b' ∧ c ≠ 't' ∧ c ≠ 'f' ∧ c ≠ 'n' := by
  unfold intToDecimal
  split
  · exact ⟨'-', _, rfl, by decide, by decide, by decide, by decide, by decide, by decide,
      by decide⟩
  · obtain ⟨dg, ds, hshape⟩ : ∃ dg ds, natToDecimal n.toNat = dg :: ds := by
      cases hD : natToDecimal n.toNat with
      | nil => exact absurd hD (natToDecimal_ne_nil _)
      | cons dg ds => exact ⟨dg, ds, rfl⟩
    have hdg := natToDecimal_digits n.toNat dg (by rw [hshape]; exact List.mem_cons_self _ _)
    refine ⟨dg, ds, hshape, ?_, ?_, ?_, ?_, ?_, ?_, ?_⟩
    · intro hws
      rcases hws with h | h | h | h <;> (rw [h] at hdg; revert hdg; decide)
    all_goals (intro hc; rw [hc] at hdg; revert hdg; decide)

theorem printElems_cons_data (e : Jval) (es : List Jval) (d : Nat) : ∃ X,
    (printElems (e :: es) d).data =
      (indentStr d).data ++ ((printIndent e d).data ++ X) := by
  cases es with
  | nil =>
    refine ⟨[], ?_⟩
    show (indentStr d ++ printIndent e d).data = _
    rw [string_data_append, List.append_nil]
  | cons e2 es =>
    refine ⟨',' :: '\n' :: (printElems (e2 :: es) d).data, ?_⟩
    show (indentStr d ++ printIndent e d ++ ",\n" ++ printElems (e2 :: es) d).data = _
    rw [string_data_append, string_data_append, string_data_append]
    simp [List.append_assoc]

theorem printMembers_cons_data (k : String) (v : Jval) (fs : List (String × Jval))
    (d : Nat) : ∃ X,
    (printMembers ((k, v) :: fs) d).data = (indentStr d).data ++ '"' :: X := by
  cases fs with
  | nil =>
    refine ⟨(k.data.map escapeChar).flatten ++ '"' ::
      (':' :: ' ' :: (printIndent v d).data), ?_⟩
    show (indentStr d ++ escapeString k ++ ": " ++ printIndent v d).data = _
    rw [string_data_append, string_data_append, string_data_append]
    show _ ++ ('"' :: ((k.data.map escapeChar).flatten ++ ['"'])) ++ _ ++ _ = _
    simp [List.append_assoc]
  | cons f2 fs =>
    refine ⟨(k.data.map escapeChar).flatten ++ '"' ::
      (':' :: ' ' :: ((printIndent v d).data ++ ',' :: '\n' ::
        (printMembers (f2 :: fs) d).data)), ?_⟩
    show (indentStr d ++ escapeString k ++ ": " ++ printIndent v d ++ ",\n" ++
      printMembers (f2 :: fs) d).data = _
    rw [string_data_append, string_data_append, string_data_append, string_data_append]
    show ((((_ ++ ('"' :: ((k.data.map escapeChar).flatten ++ ['"']))) ++ _) ++ _) ++ _) ++ _ = _
    simp [List.append_assoc, indentStr]

mutual

/-- The parser inverts the indented printer on every value, for any
whitespace prefix, any sufficient fuel, and any remainder that does not
begin with a digit. -/
theorem parseVal_print : (v : Jval) → ∀ (d fuel : Nat) (pre rest : List Char),
    (∀ c ∈ pre, wsChar c) → jsizeV v ≤ fuel → noDigitStart rest →
    parseVal fuel (pre ++ ((printIndent v d).data ++ rest)) = some (v, rest)
  | .jnull => by
    intro d fuel pre rest hpre hfuel hrest
    cases fuel with
    | zero =>
      simp only [jsizeV] at hfuel
      omega
    | succ f =>
      rw [parseVal_succ_ws f _ _ (skipWs_pre pre hpre _)]
      rfl
  | .jbool true => by
    intro d fuel pre rest hpre hfuel hrest
    cases fuel with
    | zero =>
      simp only [jsizeV] at hfuel
      omega
    | succ f =>
      rw [parseVal_succ_ws f _ _ (skipWs_pre pre hpre _)]
      rfl
  | .jbool false => by
    intro d fuel pre rest hpre hfuel hrest
    cases fuel with
    | zero =>
      simp only [jsizeV] at hfuel
      omega
    | succ f =>
      rw [parseVal_succ_ws f _ _ (skipWs_pre pre hpre _)]
      rfl
  | .jnum n => by
    intro d fuel pre rest hpre hfuel hrest
    cases fuel with
    | zero =>
      simp only [jsizeV] at hfuel
      omega
    | succ f =>
      rw [parseVal_succ_ws f _ _ (skipWs_pre pre hpre _)]
      obtain ⟨c0, t0, hI, hnws, h1, h2, h3, h4, h5, h6⟩ := intToDecimal_head n
      have hdata : (printIndent (.jnum n) d).data = intToDecimal n := rfl
      rw [hdata, hI, List.cons_append, parseVal]
      simp only [skipWs_nonws _ _ hnws]
      rw [if_neg h1, if_neg h2, if_neg h3, if_neg h4, if_neg h5, if_neg h6,
        ← List.cons_append, ← hI]
      exact parseNumber_round n rest hrest
  | .jstr s => by
    intro d fuel pre rest hpre hfuel hrest
    cases fuel with
    | zero =>
      simp only [jsizeV] at hfuel
      omega
    | succ f =>
      rw [parseVal_succ_ws f _ _ (skipWs_pre pre hpre _)]
      have hd1 : (printIndent (.jstr s) d).data ++ rest =
          '"' :: ((s.data.map escapeChar).flatten ++ '"' :: rest) := by
        show ('"' :: ((s.data.map escapeChar).flatten ++ ['"'])) ++ rest = _
        rw [List.cons_append, List.append_assoc, List.singleton_append]
      rw [hd1, parseVal]
      simp only [skipWs_nonws _ _ (show ¬wsChar '"' by decide), if_true, if_false,
        reduceIte]
      rw [parseStringBody_round s.data _ rest (by
        rw [List.length_append, List.length_cons]
        have := escapeFlatten_le s.data
        omega)]
      simp only [Option.map_some']
  | .jarr [] => by
    intro d fuel pre rest hpre hfuel hrest
    cases fuel with
    | zero =>
      simp only [jsizeV] at hfuel
      omega
    | succ f =>
      rw [parseVal_succ_ws f _ _ (skipWs_pre pre hpre _)]
      rfl
  | .jarr (e :: es) => by
    intro d fuel pre rest hpre hfuel hrest
    cases fuel with
    | zero =>
      simp only [jsizeV] at hfuel
      omega
    | succ f =>
      rw [parseVal_succ_ws f _ _ (skipWs_pre pre hpre _)]
      have hd1 : (printIndent (.jarr (e :: es)) d).data ++ rest =
          '[' :: '\n' :: ((printElems (e :: es) (d + 1)).data ++ '\n' ::
            ((indentStr d).data ++ ']' :: rest)) := by
        show ("[\n" ++ printElems (e :: es) (d + 1) ++ "\n" ++ indentStr d ++ "]").data
          ++ rest = _
        rw [string_data_append, string_data_append, string_data_append, string_data_append]
        simp [List.append_assoc]
      rw [hd1, parseVal]
      simp only [skipWs_nonws _ _ (show ¬wsChar '[' by decide), if_true, if_false,
        reduceIte]
      obtain ⟨c0, t0, hPE, hnws0, hne0, _⟩ := printIndent_head e (d + 1)
      obtain ⟨X, hX⟩ := printElems_cons_data e es (d + 1)
      have hskip : skipWs ('\n' :: ((printElems (e :: es) (d + 1)).data ++ '\n' ::
          ((indentStr d).data ++ ']' :: rest))) =
          c0 :: (t0 ++ (X ++ '\n' :: ((indentStr d).data ++ ']' :: rest))) := by
        rw [skipWs_ws _ _ (by decide), hX, List.append_assoc,
          skipWs_pre _ (indent_ws (d + 1)), List.append_assoc, hPE, List.cons_append,
          skipWs_nonws _ _ hnws0]
      simp only [hskip]
      rw [if_neg hne0]
      rw [parseElems_print (e :: es) (List.cons_ne_nil _ _) d f rest (by
        simp only [jsizeV] at hfuel
        omega)]
      rfl
  | .jobj [] => by
    intro d fuel pre rest hpre hfuel hrest
    cases fuel with
    | zero =>
      simp only [jsizeV] at hfuel
      omega
    | succ f =>
      rw [parseVal_succ_ws f _ _ (skipWs_pre pre hpre _)]
      rfl
  | .jobj (kv :: fs) => by
    intro d fuel pre rest hpre hfuel hrest
    cases fuel with
    | zero =>
      simp only [jsizeV] at hfuel
      omega
    | succ f =>
      rw [parseVal_succ_ws f _ _ (skipWs_pre pre hpre _)]
      have hd1 : (printIndent (.jobj (kv :: fs)) d).data ++ rest =
          '\x7b' :: '\n' :: ((printMembers (kv :: fs) (d + 1)).data ++ '\n' ::
            ((indentStr d).data ++ '\x7d' :: rest)) := by
        show ("\x7b\n" ++ printMembers (kv :: fs) (d + 1) ++ "\n" ++ indentStr d ++
          "\x7d").data ++ rest = _
        rw [string_data_append, string_data_append, string_data_append, string_data_append]
        simp [List.append_assoc]
      rw [hd1, parseVal]
      simp only [skipWs_nonws _ _ (show ¬wsChar '\x7b' by decide), if_true, if_false,
        reduceIte]
      obtain ⟨k, v⟩ := kv
      obtain ⟨X, hX⟩ := printMembers_cons_data k v fs (d + 1)
      have hskip : skipWs ('\n' :: ((printMembers ((k, v) :: fs) (d + 1)).data ++ '\n' ::
          ((indentStr d).data ++ '\x7d' :: rest))) =
          '"' :: (X ++ '\n' :: ((indentStr d).data ++ '\x7d' :: rest)) := by
        rw [skipWs_ws _ _ (by decide), hX, List.append_assoc,
          skipWs_pre _ (indent_ws (d + 1)), List.cons_append,
          skipWs_nonws _ _ (by decide)]
      simp only [hskip]
      rw [if_neg (by decide)]
      rw [parseMembers_print ((k, v) :: fs) (List.cons_ne_nil _ _) d f rest (by
        simp only [jsizeV] at hfuel
        omega)]
      rfl

theorem parseElems_print : (es : List Jval) → es ≠ [] → ∀ (d f : Nat) (rest : List Char),
    jsizeL es ≤ f →
    parseElems f ('\n' :: ((printElems es (d + 1)).data ++ '\n' ::
      ((indentStr d).data ++ ']' :: rest))) = some (es, rest)
  | [], hne => absurd rfl hne
  | [e], _ => by
    intro d f rest hf
    cases f with
    | zero =>
      simp only [jsizeL] at hf
      omega
    | succ f =>
      rw [parseElems]
      have hin : '\n' :: ((printElems [e] (d + 1)).data ++ '\n' ::
          ((indentStr d).data ++ ']' :: rest)) =
          ('\n' :: (indentStr (d + 1)).data) ++ ((printIndent e (d + 1)).data ++
            ('\n' :: ((indentStr d).data ++ ']' :: rest))) := by
        show '\n' :: ((indentStr (d + 1) ++ printIndent e (d + 1)).data ++ _) = _
        rw [string_data_append]
        simp [List.append_assoc]
      rw [hin, parseVal_print e (d + 1) f _ _
        (by
          intro c hc
          rcases List.mem_cons.mp hc with h | h
          · rw [h]; exact Or.inr (Or.inr (Or.inl rfl))
          · exact indent_ws (d + 1) c h)
        (by simp only [jsizeL] at hf; omega)
        (noDigitStart_cons _ _ (by decide))]
      have hsk : skipWs ('\n' :: ((indentStr d).data ++ ']' :: rest)) = ']' :: rest := by
        rw [skipWs_ws _ _ (by decide), skipWs_pre _ (indent_ws d),
          skipWs_nonws _ _ (by decide)]
      simp only [hsk, if_true, if_false, reduceIte]
      rw [if_neg (by decide)]
  | e :: e2 :: es, _ => by
    intro d f rest hf
    cases f with
    | zero =>
      simp only [jsizeL] at hf
      omega
    | succ f =>
      rw [parseElems]
      have hin : '\n' :: ((printElems (e :: e2 :: es) (d + 1)).data ++ '\n' ::
          ((indentStr d).data ++ ']' :: rest)) =
          ('\n' :: (indentStr (d + 1)).data) ++ ((printIndent e (d + 1)).data ++
            (',' :: '\n' :: ((printElems (e2 :: es) (d + 1)).data ++ '\n' ::
              ((indentStr d).data ++ ']' :: rest)))) := by
        show '\n' :: ((indentStr (d + 1) ++ printIndent e (d + 1) ++ ",\n" ++
          printElems (e2 :: es) (d + 1)).data ++ _) = _
        rw [string_data_append, string_data_append, string_data_append]
        simp [List.append_assoc]
      rw [hin, parseVal_print e (d + 1) f _ _
        (by
          intro c hc
          rcases List.mem_cons.mp hc with h | h
          · rw [h]; exact Or.inr (Or.inr (Or.inl rfl))
          · exact indent_ws (d + 1) c h)
        (by simp only [jsizeL] at hf; omega)
        (noDigitStart_cons _ _ (by decide))]
      have hsk : skipWs (',' :: '\n' :: ((printElems (e2 :: es) (d + 1)).data ++ '\n' ::
          ((indentStr d).data ++ ']' :: rest))) =
          ',' :: ('\n' :: ((printElems (e2 :: es) (d + 1)).data ++ '\n' ::
            ((indentStr d).data ++ ']' :: rest))) :=
        skipWs_nonws _ _ (by decide)
      simp only [hsk, if_true, if_false, reduceIte]
      rw [parseElems_print (e2 :: es) (List.cons_ne_nil _ _) d f rest (by
        simp only [jsizeL] at hf ⊢
        omega)]
      rfl

theorem parseMembers_print : (fs : List (String × Jval)) → fs ≠ [] →
    ∀ (d f : Nat) (rest : List Char),
    jsizeM fs ≤ f →
    parseMembers f ('\n' :: ((printMembers fs (d + 1)).data ++ '\n' ::
      ((indentStr d).data ++ '\x7d' :: rest))) = some (fs, rest)
  | [], hne => absurd rfl hne
  | [(k, v)], _ => by
    intro d f rest hf
    cases f with
    | zero =>
      simp only [jsizeM] at hf
      omega
    | succ f =>
      rw [parseMembers]
      have hd1 : '\n' :: ((printMembers [(k, v)] (d + 1)).data ++ '\n' ::
          ((indentStr d).data ++ '\x7d' :: rest)) =
          ('\n' :: (indentStr (d + 1)).data) ++
            ('"' :: ((k.data.map escapeChar).flatten ++ '"' ::
              (':' :: ' ' :: ((printIndent v (d + 1)).data ++ '\n' ::
                ((indentStr d).data ++ '\x7d' :: rest))))) := by
        show '\n' :: ((indentStr (d + 1) ++ escapeString k ++ ": " ++
          printIndent v (d + 1)).data ++ _) = _
        rw [string_data_append, string_data_append, string_data_append]
        show '\n' :: ((((indentStr (d + 1)).data ++
          ('"' :: ((k.data.map escapeChar).flatten ++ ['"'])) ++ _) ++ _) ++ _) = _
        simp [List.append_assoc]
      rw [hd1]
      have hsk1 : skipWs (('\n' :: (indentStr (d + 1)).data) ++
          ('"' :: ((k.data.map escapeChar).flatten ++ '"' ::
            (':' :: ' ' :: ((printIndent v (d + 1)).data ++ '\n' ::
              ((indentStr d).data ++ '\x7d' :: rest)))))) =
          '"' :: ((k.data.map escapeChar).flatten ++ '"' ::
            (':' :: ' ' :: ((printIndent v (d + 1)).data ++ '\n' ::
              ((indentStr d).data ++ '\x7d' :: rest)))) := by
        rw [skipWs_pre _ (by
          intro c hc
          rcases List.mem_cons.mp hc with h | h
          · rw [h]; exact Or.inr (Or.inr (Or.inl rfl))
          · exact indent_ws (d + 1) c h)]
        exact skipWs_nonws _ _ (by decide)
      simp only [hsk1, if_true, if_false, reduceIte]
      rw [parseStringBody_round k.data _ _ (by
        rw [List.length_append, List.length_cons]
        have := escapeFlatten_le k.data
        omega)]
      have hsk2 : skipWs (':' :: ' ' :: ((printIndent v (d + 1)).data ++ '\n' ::
          ((indentStr d).data ++ '\x7d' :: rest))) =
          ':' :: (' ' :: ((printIndent v (d + 1)).data ++ '\n' ::
            ((indentStr d).data ++ '\x7d' :: rest))) :=
        skipWs_nonws _ _ (by decide)
      simp only [hsk2, if_true, if_false, reduceIte]
      have hin : ' ' :: ((printIndent v (d + 1)).data ++ '\n' ::
          ((indentStr d).data ++ '\x7d' :: rest)) =
          [' '] ++ ((printIndent v (d + 1)).data ++ ('\n' ::
            ((indentStr d).data ++ '\x7d' :: rest))) := rfl
      rw [hin, parseVal_print v (d + 1) f [' '] _
        (by intro c hc; rw [List.mem_singleton] at hc; rw [hc]; exact Or.inl rfl)
        (by simp only [jsizeM] at hf; omega)
        (noDigitStart_cons _ _ (by decide))]
      have hsk3 : skipWs ('\n' :: ((indentStr d).data ++ '\x7d' :: rest)) =
          '\x7d' :: rest := by
        rw [skipWs_ws _ _ (by decide), skipWs_pre _ (indent_ws d),
          skipWs_nonws _ _ (by decide)]
      simp only [hsk3, if_true, if_false, reduceIte]
      rw [if_neg (by decide)]
  | (k, v) :: kv2 :: fs, _ => by
    intro d f rest hf
    cases f with
    | zero =>
      simp only [jsizeM] at hf
      omega
    | succ f =>
      rw [parseMembers]
      have hd1 : '\n' :: ((printMembers ((k, v) :: kv2 :: fs) (d + 1)).data ++ '\n' ::
          ((indentStr d).data ++ '\x7d' :: rest)) =
          ('\n' :: (indentStr (d + 1)).data) ++
            ('"' :: ((k.data.map escapeChar).flatten ++ '"' ::
              (':' :: ' ' :: ((printIndent v (d + 1)).data ++ ',' :: '\n' ::
                ((printMembers (kv2 :: fs) (d + 1)).data ++ '\n' ::
                  ((indentStr d).data ++ '\x7d' :: rest)))))) := by
        show '\n' :: ((indentStr (d + 1) ++ escapeString k ++ ": " ++
          printIndent v (d + 1) ++ ",\n" ++ printMembers (kv2 :: fs) (d + 1)).data ++ _) = _
        rw [string_data_append, string_data_append, string_data_append,
          string_data_append, string_data_append]
        show '\n' :: (((((((indentStr (d + 1)).data ++
          ('"' :: ((k.data.map escapeChar).flatten ++ ['"']))) ++ _) ++ _) ++ _) ++ _) ++ _) = _
        simp [List.append_assoc]
      rw [hd1]
      have hsk1 : skipWs (('\n' :: (indentStr (d + 1)).data) ++
          ('"' :: ((k.data.map escapeChar).flatten ++ '"' ::
            (':' :: ' ' :: ((printIndent v (d + 1)).data ++ ',' :: '\n' ::
              ((printMembers (kv2 :: fs) (d + 1)).data ++ '\n' ::
                ((indentStr d).data ++ '\x7d' :: rest))))))) =
          '"' :: ((k.data.map escapeChar).flatten ++ '"' ::
            (':' :: ' ' :: ((printIndent v (d + 1)).data ++ ',' :: '\n' ::
              ((printMembers (kv2 :: fs) (d + 1)).data ++ '\n' ::
                ((indentStr d).data ++ '\x7d' :: rest))))) := by
        rw [skipWs_pre _ (by
          intro c hc
          rcases List.mem_cons.mp hc with h | h
          · rw [h]; exact Or.inr (Or.inr (Or.inl rfl))
          · exact indent_ws (d + 1) c h)]
        exact skipWs_nonws _ _ (by decide)
      simp only [hsk1, if_true, if_false, reduceIte]
      rw [parseStringBody_round k.data _ _ (by
        rw [List.length_append, List.length_cons]
        have := escapeFlatten_le k.data
        omega)]
      have hsk2 : skipWs (':' :: ' ' :: ((printIndent v (d + 1)).data ++ ',' :: '\n' ::
          ((printMembers (kv2 :: fs) (d + 1)).data ++ '\n' ::
            ((indentStr d).data ++ '\x7d' :: rest)))) =
          ':' :: (' ' :: ((printIndent v (d + 1)).data ++ ',' :: '\n' ::
            ((printMembers (kv2 :: fs) (d + 1)).data ++ '\n' ::
              ((indentStr d).data ++ '\x7d' :: rest)))) :=
        skipWs_nonws _ _ (by decide)
      simp only [hsk2, if_true, if_false, reduceIte]
      have hin : ' ' :: ((printIndent v (d + 1)).data ++ ',' :: '\n' ::
          ((printMembers (kv2 :: fs) (d + 1)).data ++ '\n' ::
            ((indentStr d).data ++ '\x7d' :: rest))) =
          [' '] ++ ((printIndent v (d + 1)).data ++ (',' :: '\n' ::
            ((printMembers (kv2 :: fs) (d + 1)).data ++ '\n' ::
              ((indentStr d).data ++ '\x7d' :: rest)))) := rfl
      rw [hin, parseVal_print v (d + 1) f [' '] _
        (by intro c hc; rw [List.mem_singleton] at hc; rw [hc]; exact Or.inl rfl)
        (by simp only [jsizeM] at hf; omega)
        (noDigitStart_cons _ _ (by decide))]
      have hsk3 : skipWs (',' :: '\n' ::
          ((printMembers (kv2 :: fs) (d + 1)).data ++ '\n' ::
            ((indentStr d).data ++ '\x7d' :: rest))) =
          ',' :: ('\n' :: ((printMembers (kv2 :: fs) (d + 1)).data ++ '\n' ::
            ((indentStr d).data ++ '\x7d' :: rest))) :=
        skipWs_nonws _ _ (by decide)
      simp only [hsk3, if_true, if_false, reduceIte]
      rw [parseMembers_print (kv2 :: fs) (List.cons_ne_nil _ _) d f rest (by
        simp only [jsizeM] at hf ⊢
        omega)]
      have hk : (⟨k.data⟩ : String) = k := by cases k; rfl
      rw [hk]
      rfl

end

/-! ## State round trip: Save then LoadState -/

mutual

/-- The node count of a value is bounded by the length of its indented
rendering, so the printed length is always sufficient parser fuel. -/
theorem jsizeV_le_print : (v : Jval) → ∀ d, jsizeV v ≤ (printIndent v d).data.length
  | .jnull => by
    intro d
    show (1 : Nat) ≤ ("null" : String).data.length
    decide
  | .jbool true => by
    intro d
    show (1 : Nat) ≤ ("true" : String).data.length
    decide
  | .jbool false => by
    intro d
    show (1 : Nat) ≤ ("false" : String).data.length
    decide
  | .jstr s => by
    intro d
    show 1 ≤ (escapeString s).data.length
    show 1 ≤ ('"' :: ((s.data.map escapeChar).flatten ++ ['"'])).length
    rw [List.length_cons]
    omega
  | .jnum n => by
    intro d
    show 1 ≤ (intToDecimal n).length
    unfold intToDecimal
    split
    · rw [List.length_cons]; omega
    · cases hD : natToDecimal n.toNat with
      | nil => exact absurd hD (natToDecimal_ne_nil _)
      | cons c t => rw [List.length_cons]; omega
  | .jarr [] => by
    intro d
    show (1 : Nat) + jsizeL [] ≤ ("[]" : String).data.length
    decide
  | .jarr (e :: es) => by
    intro d
    have h := jsizeL_le_print (e :: es) d
    show 1 + jsizeL (e :: es) ≤ (("[\n" ++ printElems (e :: es) (d + 1) ++ "\n" ++
      indentStr d ++ "]").data).length
    rw [string_data_append, string_data_append, string_data_append, string_data_append]
    simp only [List.length_append, List.length_cons, List.length_nil]
    omega
  | .jobj [] => by
    intro d
    show (1 : Nat) + jsizeM [] ≤ ("\x7b\x7d" : String).data.length
    decide
  | .jobj (kv :: fs) => by
    intro d
    have h := jsizeM_le_print (kv :: fs) d
    show 1 + jsizeM (kv :: fs) ≤ (("\x7b\n" ++ printMembers (kv :: fs) (d + 1) ++ "\n" ++
      indentStr d ++ "\x7d").data).length
    rw [string_data_append, string_data_append, string_data_append, string_data_append]
    simp only [List.length_append, List.length_cons, List.length_nil]
    omega

theorem jsizeL_le_print : (es : List Jval) → ∀ d,
    jsizeL es ≤ (printElems es (d + 1)).data.length
  | [] => by intro d; simp only [jsizeL]; omega
  | [e] => by
    intro d
    have h := jsizeV_le_print e (d + 1)
    show 1 + jsizeV e + jsizeL [] ≤ ((indentStr (d + 1) ++ printIndent e (d + 1)).data).length
    rw [string_data_append]
    simp only [List.length_append, jsizeL]
    have hind : (indentStr (d + 1)).data.length = 2 * (d + 1) := by
      show (List.replicate (2 * (d + 1)) ' ').length = 2 * (d + 1)
      rw [List.length_replicate]
    omega
  | e :: e2 :: es => by
    intro d
    have h1 := jsizeV_le_print e (d + 1)
    have h2 := jsizeL_le_print (e2 :: es) d
    show 1 + jsizeV e + jsizeL (e2 :: es) ≤
      ((indentStr (d + 1) ++ printIndent e (d + 1) ++ ",\n" ++
        printElems (e2 :: es) (d + 1)).data).length
    rw [string_data_append, string_data_append, string_data_append]
    simp only [List.length_append, List.length_cons, List.length_nil]
    omega

theorem jsizeM_le_print : (fs : List (String × Jval)) → ∀ d,
    jsizeM fs ≤ (printMembers fs (d + 1)).data.length
  | [] => by intro d; simp only [jsizeM]; omega
  | [(k, v)] => by
    intro d
    have h := jsizeV_le_print v (d + 1)
    show 1 + jsizeV v + jsizeM [] ≤
      ((indentStr (d + 1) ++ escapeString k ++ ": " ++ printIndent v (d + 1)).data).length
    rw [string_data_append, string_data_append, string_data_append]
    simp only [List.length_append, jsizeM]
    have hq : (escapeString k).data.length =
        ('"' :: ((k.data.map escapeChar).flatten ++ ['"'])).length := rfl
    rw [hq, List.length_cons, List.length_append]
    omega
  | (k, v) :: kv2 :: fs => by
    intro d
    have h1 := jsizeV_le_print v (d + 1)
    have h2 := jsizeM_le_print (kv2 :: fs) d
    show 1 + jsizeV v + jsizeM (kv2 :: fs) ≤
      ((indentStr (d + 1) ++ escapeString k ++ ": " ++ printIndent v (d + 1) ++ ",\n" ++
        printMembers (kv2 :: fs) (d + 1)).data).length
    rw [string_data_append, string_data_append, string_data_append, string_data_append,
      string_data_append]
    simp only [List.length_append, List.length_cons, List.length_nil]
    omega

end

/-- Parsing a whole indented rendering recovers the value. -/
theorem parseJson_print (v : Jval) : parseJson (printIndent v 0) = some v := by
  have h := parseVal_print v 0 ((printIndent v 0).data.length + 1) [] []
    (by intro c hc; exact absurd hc (List.not_mem_nil c))
    (by have := jsizeV_le_print v 0; omega)
    trivial
  rw [List.nil_append, List.append_nil] at h
  unfold parseJson
  rw [h]
  rfl

/-- Inserting into a sorted field list is a permutation of consing. -/
theorem insertField_perm (kv : String × Jval) :
    ∀ (l : List (String × Jval)), (insertField kv l).Perm (kv :: l)
  | [] => List.Perm.refl _
  | kv2 :: rest => by
    rw [insertField]
    by_cases h : stringLe kv.1 kv2.1
    · rw [if_pos h]
    · rw [if_neg h]
      exact ((insertField_perm kv rest).cons kv2).trans (List.Perm.swap kv kv2 rest)

/-- `sortFields` permutes its input. -/
theorem sortFields_perm : ∀ (l : List (String × Jval)), (sortFields l).Perm l
  | [] => List.Perm.refl _
  | kv :: rest =>
    (insertField_perm kv (sortFields rest)).trans ((sortFields_perm rest).cons kv)

/-- Decoding inverts the session-state encoding. -/
theorem decodeSessionState_encode (ss : SessionState) :
    decodeSessionState (encodeSessionState ss) = some ss := rfl

/-- Decoding the entries of an encoded sessions object recovers the
association list. -/
theorem decodeSessionsObj_encode :
    ∀ (m : List (String × SessionState)),
      decodeSessionsObj (m.map (fun kv => (kv.1, encodeSessionState kv.2))) = some m
  | [] => rfl
  | kv :: m => by
    rw [List.map_cons]
    show decodeSessionsObj ((kv.1, encodeSessionState kv.2) ::
      m.map (fun kv => (kv.1, encodeSessionState kv.2))) = some (kv :: m)
    rw [decodeSessionsObj]
    rw [decodeSessionState_encode kv.2, decodeSessionsObj_encode m]

/-- `decodeSessionsObj` succeeds on any permutation of a decodable member
list, producing a permutation of the decoded list. -/
theorem decodeSessionsObj_perm {l1 l2 : List (String × Jval)} (hp : l1.Perm l2) :
    ∀ {m2 : List (String × SessionState)}, decodeSessionsObj l2 = some m2 →
      ∃ m1, decodeSessionsObj l1 = some m1 ∧ m1.Perm m2 := by
  induction hp with
  | nil =>
    intro m2 h2
    exact ⟨m2, h2, by
      have : m2 = [] := by
        have h0 : decodeSessionsObj [] = some [] := rfl
        rw [h0] at h2
        exact (Option.some.injEq _ _ ▸ h2).symm
      rw [this]⟩
  | cons x p ih =>
    rename_i l1t l2t
    intro m2 h2
    obtain ⟨k, jv⟩ := x
    rw [decodeSessionsObj] at h2 ⊢
    cases hss : decodeSessionState jv with
    | none => rw [hss] at h2; exact absurd h2 (by simp)
    | some v =>
      rw [hss] at h2
      cases htl : decodeSessionsObj l2t with
      | none => rw [htl] at h2; exact absurd h2 (by simp)
      | some tail2 =>
        rw [htl] at h2
        simp only [Option.some.injEq] at h2
        obtain ⟨tail1, htl1, hptl⟩ := ih htl
        rw [htl1]
        exact ⟨(k, v) :: tail1, rfl, by rw [← h2]; exact hptl.cons (k, v)⟩
  | swap x y l =>
    intro m2 h2
    obtain ⟨kx, jx⟩ := x
    obtain ⟨ky, jy⟩ := y
    rw [decodeSessionsObj] at h2 ⊢
    cases hx : decodeSessionState jx with
    | none => rw [hx] at h2; exact absurd h2 (by simp)
    | some vx =>
      rw [hx] at h2
      rw [decodeSessionsObj] at h2
      cases hy : decodeSessionState jy with
      | none => rw [hy] at h2; exact absurd h2 (by simp)
      | some vy =>
        rw [hy] at h2
        rw [decodeSessionsObj, hx]
        cases htl : decodeSessionsObj l with
        | none => rw [htl] at h2; exact absurd h2 (by simp)
        | some tail =>
          rw [htl] at h2
          simp only [Option.some.injEq] at h2
          refine ⟨(ky, vy) :: (kx, vx) :: tail, rfl, ?_⟩
          rw [← h2]
          exact List.Perm.swap (kx, vx) (ky, vy) tail
  | trans p1 p2 ih1 ih2 =>
    intro m2 h2
    obtain ⟨mm, hmm, hpm⟩ := ih2 h2
    obtain ⟨m1, hm1, hp1⟩ := ih1 hmm
    exact ⟨m1, hm1, hp1.trans hpm⟩

/-- First-match lookup is invariant under permutation when the reference
list has distinct keys (the Go map invariant). -/
theorem lookupKey_perm {α : Type} {l1 l2 : List (String × α)} (hp : l1.Perm l2) :
    (l2.map Prod.fst).Nodup → ∀ k, lookupKey k l1 = lookupKey k l2 := by
  induction hp with
  | nil => intro _ k; rfl
  | cons x p ih =>
    intro hnd k
    rw [List.map_cons, List.nodup_cons] at hnd
    obtain ⟨kx, vx⟩ := x
    rw [lookupKey, lookupKey]
    by_cases h : kx = k
    · rw [if_pos h, if_pos h]
    · rw [if_neg h, if_neg h]
      exact ih hnd.2 k
  | swap x y l =>
    intro hnd k
    rw [List.map_cons, List.map_cons, List.nodup_cons, List.nodup_cons,
      List.mem_cons] at hnd
    obtain ⟨kx, vx⟩ := x
    obtain ⟨ky, vy⟩ := y
    rw [lookupKey, lookupKey, lookupKey, lookupKey]
    by_cases hx : kx = k
    · by_cases hy : ky = k
      · exact absurd (hx.trans hy.symm) (fun he => hnd.1 (Or.inl he))
      · rw [if_neg hy, if_pos hx, if_pos hx]
    · by_cases hy : ky = k
      · rw [if_pos hy, if_neg hx, if_pos hy]
      · rw [if_neg hy, if_neg hx, if_neg hx, if_neg hy]
  | trans p1 p2 ih1 ih2 =>
    intro hnd k
    have hnd2 : (_ : List String).Nodup := ((p2.map Prod.fst).nodup_iff).2 hnd
    exact (ih1 hnd2 k).trans (ih2 hnd k)

/-- Go map write then read at the same key. -/
theorem lookupKey_assocSet_self {α : Type} (k : String) (v : α) :
    ∀ (l : List (String × α)), lookupKey k (assocSet k v l) = some v
  | [] => by rw [assocSet, lookupKey, if_pos rfl]
  | (k2, v2) :: rest => by
    rw [assocSet]
    by_cases h : k2 = k
    · rw [if_pos h, lookupKey, if_pos h]
    · rw [if_neg h, lookupKey, if_neg h]
      exact lookupKey_assocSet_self k v rest

/-- Decoding an encoded `SyncState` succeeds, with the sessions list
permuted (by the sorted-key serialization) and `lastSyncAt` preserved. -/
theorem decodeSyncState_encode (st : SyncState) :
    ∃ m, m.Perm st.sessions ∧
      decodeSyncState (encodeSyncState st) =
        some { sessions := m, lastSyncAt := st.lastSyncAt } := by
  obtain ⟨m1, hdec, hperm⟩ := decodeSessionsObj_perm
    (sortFields_perm (st.sessions.map (fun kv => (kv.1, encodeSessionState kv.2))))
    (decodeSessionsObj_encode st.sessions)
  refine ⟨m1, hperm, ?_⟩
  show decodeSyncState (.jobj [("sessions", .jobj (sortFields
      (st.sessions.map (fun kv => (kv.1, encodeSessionState kv.2))))),
      ("last_sync_at", .jstr st.lastSyncAt)]) = _
  rw [decodeSyncState]
  rw [List.foldlM_cons]
  have h1 : applyStateField { sessions := [], lastSyncAt := "" }
      ("sessions", .jobj (sortFields
        (st.sessions.map (fun kv => (kv.1, encodeSessionState kv.2))))) =
      some { sessions := m1, lastSyncAt := "" } := by
    rw [applyStateField]
    rw [hdec]
  rw [h1]
  rfl


/-- A concrete two-session state used to instantiate the round-trip
theorem. -/
def stateSample : SyncState :=
  { sessions := [("s1", { lastSyncedUUID := "u1", lastSyncAt := "t1", messageCount := 3 }),
                 ("s2", { lastSyncedUUID := "u2", lastSyncAt := "t2", messageCount := 5 })],
    lastSyncAt := "old" }

/-- C8: for every `SyncState` `s` (with the Go-map invariant of distinct
session keys) and every path, a successful `Save(path)` followed by
`LoadState(path)` yields a state whose sessions mapping equals `s`'s
sessions mapping: the load succeeds and every key looks up to the same
entry. -/
theorem Save_then_LoadState_sessions (s : SyncState) (path now : String) (fs : FS)
    (hnd : (s.sessions.map Prod.fst).Nodup) :
    ∃ st', LoadState path (SyncState.Save s path now fs).1 = .ok st' ∧
      ∀ k, lookupKey k st'.sessions = lookupKey k s.sessions := by
  obtain ⟨m, hperm, hdec⟩ := decodeSyncState_encode { s with lastSyncAt := now }
  refine ⟨{ sessions := m, lastSyncAt := now }, ?_, ?_⟩
  · have hread : fsRead (SyncState.Save s path now fs).1 path =
        some (marshalIndentState { s with lastSyncAt := now }) := by
      show fsRead (fsRename (fsWrite fs (path ++ ".tmp")
        (marshalIndentState { s with lastSyncAt := now })) (path ++ ".tmp") path) path = _
      rw [fsRename]
      have h1 : fsRead (fsWrite fs (path ++ ".tmp")
          (marshalIndentState { s with lastSyncAt := now })) (path ++ ".tmp") =
          some (marshalIndentState { s with lastSyncAt := now }) :=
        lookupKey_assocSet_self _ _ _
      simp only [h1]
      exact lookupKey_assocSet_self _ _ _
    simp only [LoadState, hread, marshalIndentState, parseJson_print, hdec]
  · intro k
    exact lookupKey_perm hperm hnd k

/-- C8 witness: the round trip at a concrete two-session state. -/
theorem Save_then_LoadState_sessions_witness :
    (stateSample.sessions.map Prod.fst).Nodup ∧
      (∃ st', LoadState "state.json"
          (SyncState.Save stateSample "state.json" "2024-06-01T00:00:00Z" []).1 = .ok st' ∧
        ∀ k, lookupKey k st'.sessions = lookupKey k stateSample.sessions) :=
  ⟨by decide, Save_then_LoadState_sessions stateSample "state.json"
    "2024-06-01T00:00:00Z" [] (by decide)⟩

/-! ## Scanner (scanner.go): `ScanForJSONL` over `filepath.Walk`

The file system under the root is a tree of named nodes (directories carry
a readability flag standing for `readDirNames` success; `lstat` of listed
children always succeeds, as the listing is the ground truth).  `nil` from
the Go callback is `none`, `filepath.SkipDir` is `WErr.skipDir`, and any
other error a callback could return is `WErr.fail`; `filepath.Walk`'s
`err == SkipDir → nil` filtering is applied at the top level.  String
helpers mirror `strings`/`path/filepath` at rune granularity (the paths
and patterns involved are ASCII, where Go's byte-wise scanning
coincides); `filepath.Rel` is embedded by its value on the walk-generated
inputs, which are the root itself or root-joined paths. -/

def charsStarts : List Char → List Char → Bool
  | _, [] => true
  | [], _ :: _ => false
  | c :: s, p :: ps => c = p && charsStarts s ps

/-- `strings.HasPrefix`. -/
def strStarts (s p : String) : Bool := charsStarts s.data p.data

/-- `strings.HasSuffix`. -/
def strEnds (s p : String) : Bool := charsStarts s.data.reverse p.data.reverse

def charsContains (sub : List Char) : List Char → Bool
  | [] => charsStarts [] sub
  | c :: rest => charsStarts (c :: rest) sub || charsContains sub rest

/-- `strings.Contains`. -/
def strContains (s sub : String) : Bool := charsContains sub.data s.data

/-- `strings.TrimSuffix`. -/
def trimSuffix (s suf : String) : String :=
  if strEnds s suf then ⟨s.data.take (s.data.length - suf.data.length)⟩ else s

/-- Go `extractSessionID` (scanner.go). -/
def extractSessionID (filename : String) : String := trimSuffix filename ".jsonl"

/-- `filepath.Base` on slash paths. -/
def baseName (s : String) : String :=
  if s.data = [] then "." else
  match s.data.reverse.dropWhile (fun c => c = '/') with
  | [] => "/"
  | l => ⟨(l.takeWhile (fun c => c ≠ '/')).reverse⟩

/-- `filepath.Dir` on the clean slash paths `filepath.Rel` produces. -/
def dirPath (s : String) : String :=
  match s.data.reverse.dropWhile (fun c => c ≠ '/') with
  | [] => "."
  | _ :: rest => if rest = [] then "/" else ⟨rest.reverse⟩

/-- Go `extractProjectPath` (scanner.go); `filepath.ToSlash` is the
identity on slash paths. -/
def extractProjectPath (relP : String) : String :=
  let dir := dirPath relP
  if dir = "." then "/" else "/" ++ dir

/-- `filepath.Rel(base, targ)` on the walk-generated inputs: the root
itself or a root-joined path. -/
def relPath (base targ : String) : String :=
  if targ = base then "."
  else if strStarts targ (base ++ "/") then ⟨targ.data.drop (base.data.length + 1)⟩
  else targ

/-- `getEsc` of `path/filepath/match.go`: one (possibly escaped) pattern
rune, `none` for a malformed pattern. -/
def getEsc : List Char → Option (Char × List Char)
  | [] => none
  | c :: rest =>
    if c = '-' ∨ c = ']' then none
    else if c = '\\' then
      match rest with
      | [] => none
      | c2 :: rest2 => some (c2, rest2)
    else some (c, rest)

/-- The `[...]` range loop of `matchChunk`: accumulated match flag and
range count, returning the flag and the chunk after `]`. -/
def matchRanges (fuel : Nat) (r : Char) (mtch : Bool) (nrange : Nat)
    (chunk : List Char) : Option (Bool × List Char) :=
  match fuel with
  | 0 => none
  | fuel + 1 =>
    match chunk with
    | ']' :: rest =>
      if nrange > 0 then some (mtch, rest) else none
    | _ =>
      match getEsc chunk with
      | none => none
      | some (lo, rest) =>
        match (match rest with
               | '-' :: rest2 => getEsc rest2
               | _ => some (lo, rest)) with
        | none => none
        | some (hi, rest3) =>
          matchRanges fuel r (mtch || (lo ≤ r && r ≤ hi)) (nrange + 1) rest3

/-- `matchChunk` of `path/filepath/match.go`: match a star-free chunk at
the head of `s`, returning the remainder and success; `none` for a
malformed pattern. -/
def matchChunk (fuel : Nat) (chunk s : List Char) (failed : Bool) :
    Option (List Char × Bool) :=
  match fuel with
  | 0 => none
  | fuel + 1 =>
    match chunk with
    | [] => if failed then some ([], false) else some (s, true)
    | '[' :: cr =>
      let failed1 := failed || s.isEmpty
      let r : Char := match s with | c :: _ => c | [] => ' '
      let s1 := if failed1 then s else s.tail
      let negCr : Bool × List Char :=
        match cr with
        | '^' :: t => (true, t)
        | _ => (false, cr)
      match matchRanges (cr.length + 1) r false 0 negCr.2 with
      | none => none
      | some (mtch, cr3) =>
        matchChunk fuel cr3 s1 (failed1 || (mtch == negCr.1))
    | '?' :: cr =>
      (match s with
      | [] => matchChunk fuel cr s true
      | c :: st =>
        if failed then matchChunk fuel cr s failed
        else matchChunk fuel cr st (c = '/'))
    | '\\' :: cr =>
      (match cr with
      | [] => none
      | pc :: cr2 =>
        match s with
        | [] => matchChunk fuel cr2 s true
        | sc :: st =>
          if failed then matchChunk fuel cr2 s failed
          else matchChunk fuel cr2 st (pc ≠ sc))
    | pc :: cr =>
      (match s with
      | [] => matchChunk fuel cr s true
      | sc :: st =>
        if failed then matchChunk fuel cr s failed
        else matchChunk fuel cr st (pc ≠ sc))

/-- Leading `*`s of a pattern (`scanChunk`). -/
def scanStars : List Char → Bool × List Char
  | '*' :: rest => (true, (scanStars rest).2)
  | l => (false, l)

/-- The star-free chunk up to the next unbracketed `*` (`scanChunk`). -/
def scanBody (inrange : Bool) : List Char → List Char × List Char
  | [] => ([], [])
  | '\\' :: c :: rest =>
    ('\\' :: c :: (scanBody inrange rest).1, (scanBody inrange rest).2)
  | '\\' :: [] => (['\\'], [])
  | '[' :: rest => ('[' :: (scanBody true rest).1, (scanBody true rest).2)
  | ']' :: rest => (']' :: (scanBody false rest).1, (scanBody false rest).2)
  | '*' :: rest =>
    if inrange then ('*' :: (scanBody true rest).1, (scanBody true rest).2)
    else ([], '*' :: rest)
  | c :: rest => (c :: (scanBody inrange rest).1, (scanBody inrange rest).2)

def scanChunk (p : List Char) : Bool × List Char × List Char :=
  ((scanStars p).1, (scanBody false (scanStars p).2).1, (scanBody false (scanStars p).2).2)

mutual

/-- `filepath.Match`'s main pattern loop; `none` for a malformed
pattern. -/
def matchGlob : Nat → List Char → List Char → Option Bool
  | 0, _, _ => none
  | fuel + 1, pattern, name =>
    match pattern with
    | [] => some name.isEmpty
    | _ :: _ =>
      let sc := scanChunk pattern
      if sc.1 && sc.2.1 = [] then some (! charsContains ['/'] name)
      else
        match matchChunk (sc.2.1.length + name.length + 1) sc.2.1 name false with
        | none => none
        | some (t, tok) =>
          if tok && (t.isEmpty || ! sc.2.2.isEmpty) then matchGlob fuel sc.2.2 t
          else if sc.1 then starLoop fuel sc.2.1 sc.2.2 name
          else some false

/-- The `*` backtracking loop: retry the chunk at each later position of
the name, not crossing a separator. -/
def starLoop : Nat → List Char → List Char → List Char → Option Bool
  | 0, _, _, _ => none
  | fuel + 1, chunk, rest, name =>
    match name with
    | [] => some false
    | c :: tail =>
      if c = '/' then some false
      else
        match matchChunk (chunk.length + tail.length + 1) chunk tail false with
        | none => none
        | some (t, tok) =>
          if tok then
            if rest.isEmpty && ! t.isEmpty then starLoop fuel chunk rest tail
            else matchGlob fuel rest t
          else starLoop fuel chunk rest tail

end

/-- `filepath.Match(pattern, name)`: the matched flag, `none` for a
malformed pattern (the caller discards the error). -/
def filepathMatch (pattern name : String) : Option Bool :=
  matchGlob ((pattern.data.length + 1) * (name.data.length + 2))
    pattern.data name.data

/-- Go `isExcluded` (scanner.go). -/
def isExcluded (path : String) (patterns : List String) : Bool :=
  patterns.any (fun pattern =>
    (match filepathMatch pattern (baseName path) with
     | some true => true
     | _ => false) || strContains path pattern)

/-- The slice a `filepath.WalkFunc` can return: `filepath.SkipDir` or a
genuine error (`nil` is `none` at the use sites). -/
inductive WErr where
  | skipDir
  | fail (msg : String)
deriving Repr, DecidableEq

/-- The `os.FileInfo` data the walk hands the callback. -/
structure WalkInfo where
  name : String
  isDir : Bool
  modTime : Int
  size : Int
deriving Repr, DecidableEq

mutual

/-- A file-system node: a regular file or a directory whose `readable`
flag is `readDirNames` succeeding. -/
inductive Node where
  | nfile (modTime size : Int)
  | ndir (readable : Bool) (children : NodeList)
deriving Repr, DecidableEq

/-- Named directory entries, in `readDirNames`'s sorted order. -/
inductive NodeList where
  | nnil
  | ncons (name : String) (node : Node) (rest : NodeList)
deriving Repr, DecidableEq

end

def Node.isDirB : Node → Bool
  | .nfile _ _ => false
  | .ndir _ _ => true

def nodeWalkInfo (name : String) : Node → WalkInfo
  | .nfile mt sz => { name := name, isDir := false, modTime := mt, size := sz }
  | .ndir _ _ => { name := name, isDir := true, modTime := 0, size := 0 }

/-- The anonymous callback inside `ScanForJSONL` (scanner.go), acting on
the captured `files` slice. -/
def scanStep (baseDir : String) (pats : List String) (path : String)
    (info : Option WalkInfo) (errIn : Option String) (files : List FileInfo) :
    List FileInfo × Option WErr :=
  match errIn with
  | some _ =>
    (match info with
    | some i => if i.isDir then (files, some .skipDir) else (files, none)
    | none => (files, none))
  | none =>
    match info with
    | none => (files, none)
    | some i =>
      if i.isDir then
        (if strStarts i.name "." && i.name ≠ "." && i.name ≠ ".claude"
         then (files, some .skipDir) else (files, none))
      else if ! strEnds i.name ".jsonl" then (files, none)
      else if isExcluded path pats then (files, none)
      else
        (files ++ [{ path := path,
                     projectPath := extractProjectPath (relPath baseDir path),
                     sessionID := extractSessionID i.name,
                     modTime := i.modTime, size := i.size }],
         none)

mutual

/-- `path/filepath`'s recursive `walk`, specialized to the scan
callback. -/
def walkNode (baseDir : String) (pats : List String) (path name : String) :
    Node → List FileInfo → List FileInfo × Option WErr
  | .nfile mt sz, files =>
    scanStep baseDir pats path (some (nodeWalkInfo name (.nfile mt sz))) none files
  | .ndir readable children, files =>
    let errRead : Option String := if readable then none else some "permission denied"
    let r1 := scanStep baseDir pats path
      (some (nodeWalkInfo name (.ndir readable children))) errRead files
    if errRead.isSome || r1.2.isSome then (r1.1, r1.2)
    else walkChildren baseDir pats path children r1.1

/-- The child loop of `walk`: a child's `SkipDir` on a directory is
swallowed, any other child error aborts. -/
def walkChildren (baseDir : String) (pats : List String) (path : String) :
    NodeList → List FileInfo → List FileInfo × Option WErr
  | .nnil, files => (files, none)
  | .ncons nm child rest, files =>
    let r := walkNode baseDir pats (path ++ "/" ++ nm) nm child files
    match r.2 with
    | none => walkChildren baseDir pats path rest r.1
    | some e =>
      if ! child.isDirB || e ≠ WErr.skipDir then (r.1, some e)
      else walkChildren baseDir pats path rest r.1

end

/-- Go `ScanForJSONL` (scanner.go): `filepath.Walk` from the root (a
failing root `lstat` is `root = none`), with Walk's `SkipDir → nil`
filtering on the final error. -/
def ScanForJSONL (baseDir : String) (pats : List String) (root : Option Node) :
    List FileInfo × Option String :=
  let w : List FileInfo × Option WErr :=
    match root with
    | none => scanStep baseDir pats baseDir none (some ("lstat " ++ baseDir)) []
    | some node => walkNode baseDir pats baseDir (baseName baseDir) node []
  (w.1, match w.2 with
        | some .skipDir => none
        | some (.fail m) => some m
        | none => none)

/-- Every branch of the scan callback returns `nil` or `SkipDir`. -/
theorem scanStep_err (b : String) (pats : List String) (path : String)
    (info : Option WalkInfo) (errIn : Option String) (files : List FileInfo) :
    (scanStep b pats path info errIn files).2 = none ∨
    (scanStep b pats path info errIn files).2 = some WErr.skipDir := by
  unfold scanStep
  rcases errIn with _ | e <;> rcases info with _ | i
  · exact Or.inl rfl
  · dsimp only
    split_ifs <;> first | exact Or.inl rfl | exact Or.inr rfl
  · exact Or.inl rfl
  · dsimp only
    split_ifs <;> first | exact Or.inl rfl | exact Or.inr rfl

/-- On a regular file the scan callback always returns `nil`. -/
theorem scanStep_file (b : String) (pats : List String) (path name : String)
    (mt sz : Int) (files : List FileInfo) :
    (scanStep b pats path (some (nodeWalkInfo name (.nfile mt sz))) none files).2 =
      none := by
  unfold scanStep nodeWalkInfo
  dsimp only
  rw [if_neg (by decide)]
  split_ifs <;> rfl

mutual

/-- The walk of any node ends in `nil` or `SkipDir`: genuine errors never
arise. -/
theorem walkNode_err : (n : Node) → ∀ (b : String) (pats : List String)
    (path name : String) (files : List FileInfo),
    (walkNode b pats path name n files).2 = none ∨
    (walkNode b pats path name n files).2 = some WErr.skipDir
  | .nfile mt sz => by
    intro b pats path name files
    exact Or.inl (scanStep_file b pats path name mt sz files)
  | .ndir readable children => by
    intro b pats path name files
    rw [walkNode]
    cases readable with
    | true =>
      simp only [reduceIte]
      rcases scanStep_err b pats path
          (some (nodeWalkInfo name (.ndir true children))) none files with h | h
      · rw [h, if_neg (by decide)]
        exact Or.inl (walkChildren_err children b pats path _)
      · rw [h, if_pos (by decide)]
        exact Or.inr rfl
    | false =>
      rw [if_pos (by simp)]
      exact scanStep_err b pats path _ _ files

/-- The child loop of the walk always ends in `nil`. -/
theorem walkChildren_err : (l : NodeList) → ∀ (b : String)
    (pats : List String) (path : String) (files : List FileInfo),
    (walkChildren b pats path l files).2 = none
  | .nnil => by intro b pats path files; rfl
  | .ncons nm child rest => by
    intro b pats path files
    rw [walkChildren]
    rcases walkNode_err child b pats (path ++ "/" ++ nm) nm files with h | h
    · simp only [h]
      exact walkChildren_err rest b pats path _
    · simp only [h]
      cases child with
      | nfile mt sz =>
        have h2 : (walkNode b pats (path ++ "/" ++ nm) nm (.nfile mt sz) files).2 =
            none := scanStep_file b pats (path ++ "/" ++ nm) nm mt sz files
        rw [h2] at h
        exact absurd h (by simp)
      | ndir r ch =>
        rw [if_neg (by simp [Node.isDirB])]
        exact walkChildren_err rest b pats path _

end

/-- C5 counterexample: an unreadable root does not make `ScanForJSONL`
fail.  Whether the root's listing fails (unreadable directory) or its very
`lstat` fails, the result is an empty file list and a `nil` error — the
callback swallows the error (returning `SkipDir`, which `filepath.Walk`
maps to `nil`), so the scan does not "fail with an error exactly when the
root directory is unreadable". -/
theorem ScanForJSONL_counterexample :
    ScanForJSONL "/logs" [] (some (.ndir false .nnil)) = ([], none) ∧
    ScanForJSONL "/logs" [] none = ([], none) :=
  ⟨rfl, rfl⟩

/-- C5 (amended): `ScanForJSONL` never returns an error at all.  The walk
callback returns `nil` for file errors and root-`lstat` failures and
`SkipDir` for unreadable directories, and `filepath.Walk` turns a
top-level `SkipDir` into `nil`; unreadable subdirectories below the root
are skipped and the scan continues. -/
theorem ScanForJSONL_no_error (b : String) (pats : List String)
    (root : Option Node) : (ScanForJSONL b pats root).2 = none := by
  unfold ScanForJSONL
  cases root with
  | none => rfl
  | some node =>
    rcases walkNode_err node b pats b (baseName b) [] with h | h <;> simp only [h]

end SyncEngine

deriving instance DecidableEq for Except

namespace SyncEngine

set_option maxRecDepth 100000 in
/-- C1 counterexample: on a session whose messages carry two distinct
models, both enumeration orders of the model set are possible iteration
orders of the Go map, and they produce different digests — two invocations
of `CalculateFileHash` on the identical input can disagree, so the function
is not deterministic as claimed. -/
theorem CalculateFileHash_counterexample :
    ModelEnumOrder [msgModelA, msgModelB] ["ma", "mb"] ∧
    ModelEnumOrder [msgModelA, msgModelB] ["mb", "ma"] ∧
    CalculateFileHash sampleFile [msgModelA, msgModelB] ["ma", "mb"] ≠
      CalculateFileHash sampleFile [msgModelA, msgModelB] ["mb", "ma"] := by
  decide

/-- C1 amended: `CalculateFileHash` is deterministic up to the unspecified
iteration order of the model set — in particular it is a pure function of
the input whenever the messages carry at most one distinct model value;
every digest it produces is a 64-character lowercase hexadecimal string;
and changing any message's content changes the JSONL pre-image over which
the SHA-256 digest is computed (a digest change then rests on SHA-256
collision resistance, a cryptographic assumption rather than a theorem). -/
theorem CalculateFileHash_deterministic_up_to_model_order :
    (∀ (file : FileInfo) (msgs : List Message) (ord1 ord2 : List String),
      ModelEnumOrder msgs ord1 → ModelEnumOrder msgs ord2 →
      (extractModelsSet msgs).length ≤ 1 →
      CalculateFileHash file msgs ord1 = CalculateFileHash file msgs ord2) ∧
    (∀ (file : FileInfo) (msgs : List Message) (ord : List String) (d : String),
      CalculateFileHash file msgs ord = Except.ok d →
      d.data.length = 64 ∧ ∀ c ∈ d.data, c ∈ hexAlphabet) ∧
    (∀ (file : FileInfo) (ord : List String) (pre post : List Message)
      (m : Message) (c' : String), m.content ≠ c' →
      sessionContent file (pre ++ m :: post) ord ≠
        sessionContent file (pre ++ { m with content := c' } :: post) ord) := by
  refine ⟨CalculateFileHash_order_insensitive, ?_, sessionContent_content_inj⟩
  intro file msgs ord d hok
  cases msgs with
  | nil => exact absurd hok (by simp [CalculateFileHash])
  | cons m0 rest =>
    simp only [CalculateFileHash, Except.ok.injEq] at hok
    rw [← hok]
    exact CalculateContentHash_format _

/-- C1 amended-claim witness: concrete instances discharging each
hypothesis of the three conjuncts. -/
theorem CalculateFileHash_deterministic_witness :
    (CalculateFileHash sampleFile [msgOne] [] = CalculateFileHash sampleFile [msgOne] []) ∧
    ((CalculateContentHash (sessionJSONL sampleFile msgOne [] [])).data.length = 64 ∧
      ∀ c ∈ (CalculateContentHash (sessionJSONL sampleFile msgOne [] [])).data,
        c ∈ hexAlphabet) ∧
    sessionContent sampleFile [msgOne] [] ≠
      sessionContent sampleFile [{ msgOne with content := "Changed" }] [] :=
  ⟨CalculateFileHash_deterministic_up_to_model_order.1 sampleFile [msgOne] [] []
      (by decide) (by decide) (by decide),
   CalculateFileHash_deterministic_up_to_model_order.2.1 sampleFile [msgOne] [] _ rfl,
   CalculateFileHash_deterministic_up_to_model_order.2.2 sampleFile [] [] [] msgOne
      "Changed" (by decide)⟩

end SyncEngine

namespace SyncEngine

/-! ## The sync orchestrator (`runSync`, part_007)

The per-file effects of `runSync`'s loop are oracles carried by
`FileData`: `parsed` is the outcome of reading and parsing the file
(shared by `CalculateFileHash` and `CalculateDelta`, which both read it),
`modelOrder` the model-map iteration order, and `syncResult` the outcome
of `apiClient.Sync` for this file's request.  `requests` records every
request handed to the transmitter, and `time.Now()` is the explicit `now`
parameter. -/

/-- Go struct `api.Message` (client.go). -/
structure ApiMessage where
  uuid : String
  timestamp : String
  role : String
  content : String
  model : String
  tokens : Int
deriving Repr, DecidableEq

/-- Go struct `api.SyncRequest` (client.go). -/
structure SyncRequest where
  machineID : String
  sessionID : String
  projectPath : String
  messages : List ApiMessage
  timestamp : String
deriving Repr, DecidableEq

/-- Go struct `api.SyncResponse` (client.go). -/
structure SyncResponse where
  success : Bool
  processed : Int
  sessionID : String
deriving Repr, DecidableEq

/-- Go struct `api.Conversation` (client.go). -/
structure Conversation where
  sessionID : String
  hash : String
  date : String
deriving Repr, DecidableEq

/-- Go `ConversationNeedsSync` (hash.go). -/
def ConversationNeedsSync (localHash remoteHash : String) : Bool :=
  if remoteHash = "" then true
  else localHash != remoteHash

/-- One scanned file together with the oracles for its I/O effects. -/
structure FileData where
  file : FileInfo
  parsed : Except String (List Message)
  modelOrder : List String
  syncResult : Except String SyncResponse
deriving Repr, DecidableEq

/-- `sync.CalculateFileHash(file)` including the file read/parse it
performs. -/
def CalculateFileHashFrom (fd : FileData) : Except String String :=
  match fd.parsed with
  | .error e => .error e
  | .ok msgs => CalculateFileHash fd.file msgs fd.modelOrder

/-- `sync.CalculateDelta(file, lastUUID)` including the file read/parse
it performs. -/
def CalculateDeltaFrom (fd : FileData) (lastUUID : String) :
    Except String (Option Delta) :=
  match fd.parsed with
  | .error e => .error e
  | .ok msgs => .ok (CalculateDelta fd.file msgs lastUUID)

/-- The `api.Message` conversion in `runSync`'s loop: `Tokens: 0`
("Not available in conversation format"). -/
def toApiMessage (m : Message) : ApiMessage :=
  { uuid := m.uuid, timestamp := m.timestamp, role := m.role,
    content := m.content, model := m.model, tokens := 0 }

/-- The loop state of `runSync`: the in-memory sync state, the three
counters, and the log of requests handed to the transmitter. -/
structure RunAcc where
  state : SyncState
  synced : Nat
  skipped : Nat
  errors : Nat
  requests : List SyncRequest
deriving Repr, DecidableEq

/-- One iteration of `runSync`'s per-file loop (part_007 lines 126-188):
hash, needs-sync check, delta, request conversion, transmit, and the
success-conditional watermark update. -/
def processFile (machineID now : String) (remote : String → String)
    (acc : RunAcc) (fd : FileData) : RunAcc :=
  match CalculateFileHashFrom fd with
  | .error _ => { acc with errors := acc.errors + 1 }
  | .ok localHash =>
    if ! ConversationNeedsSync localHash (remote fd.file.sessionID) then
      { acc with skipped := acc.skipped + 1 }
    else
      match CalculateDeltaFrom fd (acc.state.GetLastSyncedUUID fd.file.sessionID) with
      | .error _ => { acc with errors := acc.errors + 1 }
      | .ok none => acc
      | .ok (some delta) =>
        let req : SyncRequest :=
          { machineID := machineID, sessionID := delta.sessionID,
            projectPath := delta.projectPath,
            messages := delta.messages.map toApiMessage, timestamp := now }
        let acc1 := { acc with requests := acc.requests ++ [req] }
        match fd.syncResult with
        | .error _ => { acc1 with errors := acc1.errors + 1 }
        | .ok resp =>
          if resp.success then
            { acc1 with
              state := acc1.state.UpdateSession fd.file.sessionID
                delta.newLastUUID resp.processed now,
              synced := acc1.synced + 1 }
          else acc1

/-- `remoteHashes` construction: insert each conversation's hash under its
session id (Go map writes). -/
def buildRemoteHashes (convs : List Conversation) : List (String × String) :=
  convs.foldl (fun m conv => assocSet conv.sessionID conv.hash m) []

/-- Go map read with the zero-value default `""`. -/
def mapGet (m : List (String × String)) (k : String) : String :=
  match lookupKey k m with
  | some v => v
  | none => ""

/-- `runSync` from the conversation-list fetch to the final state save
(part_007 lines 104-192): a failed fetch degrades to an empty
conversation list, the scanned files are processed in order, and the
state is saved unconditionally at the end. -/
def runSyncLoop (machineID now : String) (state0 : SyncState)
    (fetchResult : Except String (List Conversation))
    (files : List FileData) (statePath : String) (fs : FS) :
    RunAcc × FS × SyncState :=
  let conversations :=
    match fetchResult with
    | .error _ => ([] : List Conversation)
    | .ok convs => convs
  let remote := buildRemoteHashes conversations
  let acc0 : RunAcc :=
    { state := state0, synced := 0, skipped := 0, errors := 0, requests := [] }
  let accF := files.foldl (processFile machineID now (mapGet remote)) acc0
  let saved := accF.state.Save statePath now fs
  (accF, saved.1, saved.2)

/-- Saving always leaves the marshaled stamped state readable at the
target path. -/
theorem fsRead_Save (s : SyncState) (path now : String) (fs : FS) :
    fsRead (SyncState.Save s path now fs).1 path =
      some (marshalIndentState { s with lastSyncAt := now }) := by
  show fsRead (fsRename (fsWrite fs (path ++ ".tmp")
    (marshalIndentState { s with lastSyncAt := now })) (path ++ ".tmp") path) path = _
  rw [fsRename]
  have h1 : fsRead (fsWrite fs (path ++ ".tmp")
      (marshalIndentState { s with lastSyncAt := now })) (path ++ ".tmp") =
      some (marshalIndentState { s with lastSyncAt := now }) :=
    lookupKey_assocSet_self _ _ _
  simp only [h1]
  exact lookupKey_assocSet_self _ _ _

/-- C4: when transmission fails for a session (the hash, needs-sync check
and delta all succeeded, and `apiClient.Sync` returned an error), the
in-memory state — in particular that session's watermark — is unchanged,
the error counter increments, the synced/skipped counters do not, and the
loop moves on; and independently of any per-file outcome, the state is
persisted at the end of the run. -/
theorem runSync_transmit_failure
    (machineID now : String) (remote : String → String) (acc : RunAcc)
    (fd : FileData) (lh : String) (d : Delta) (e : String)
    (hH : CalculateFileHashFrom fd = .ok lh)
    (hN : ConversationNeedsSync lh (remote fd.file.sessionID) = true)
    (hD : CalculateDeltaFrom fd (acc.state.GetLastSyncedUUID fd.file.sessionID) =
      .ok (some d))
    (hS : fd.syncResult = .error e) :
    ((processFile machineID now remote acc fd).state = acc.state ∧
     (processFile machineID now remote acc fd).errors = acc.errors + 1 ∧
     (processFile machineID now remote acc fd).synced = acc.synced ∧
     (processFile machineID now remote acc fd).skipped = acc.skipped) ∧
    ∀ (state0 : SyncState) (fetch : Except String (List Conversation))
      (files : List FileData) (statePath : String) (fs : FS),
      fsRead (runSyncLoop machineID now state0 fetch files statePath fs).2.1
          statePath =
        some (marshalIndentState
          { (runSyncLoop machineID now state0 fetch files statePath fs).1.state with
            lastSyncAt := now }) := by
  constructor
  · have hP : processFile machineID now remote acc fd =
        { acc with
          errors := acc.errors + 1
          requests := acc.requests ++
            [{ machineID := machineID, sessionID := d.sessionID,
               projectPath := d.projectPath,
               messages := d.messages.map toApiMessage, timestamp := now }] } := by
      unfold processFile
      simp only [hH, hN, Bool.not_true, hD, hS, if_false, reduceIte]
      rfl
    rw [hP]
    exact ⟨rfl, rfl, rfl, rfl⟩
  · intro state0 fetch files statePath fs
    exact fsRead_Save _ statePath now fs

/-- A concrete scanned file whose transmit step fails. -/
def fdFail : FileData :=
  { file := sampleFile, parsed := .ok [msgOne], modelOrder := [],
    syncResult := .error "network unreachable" }

/-- Empty loop state for the concrete runs. -/
def accW : RunAcc :=
  { state := { sessions := [], lastSyncAt := "" }, synced := 0, skipped := 0,
    errors := 0, requests := [] }

/-- The delta of `fdFail` against an empty watermark. -/
def deltaW : Delta :=
  { sessionID := "test-session", projectPath := "/test",
    messages := [msgOne], newLastUUID := "msg-1" }

set_option maxRecDepth 100000 in
/-- C4 witness: the transmit-failure theorem at a concrete file whose
hash and delta succeed and whose sync call fails. -/
theorem runSync_transmit_failure_witness :
    fdFail.syncResult = .error "network unreachable" ∧
    (((processFile "machine-1" "2024-06-01T00:00:00Z" (fun _ => "") accW fdFail).state =
        accW.state ∧
      (processFile "machine-1" "2024-06-01T00:00:00Z" (fun _ => "") accW fdFail).errors =
        accW.errors + 1 ∧
      (processFile "machine-1" "2024-06-01T00:00:00Z" (fun _ => "") accW fdFail).synced =
        accW.synced ∧
      (processFile "machine-1" "2024-06-01T00:00:00Z" (fun _ => "") accW fdFail).skipped =
        accW.skipped) ∧
     ∀ (state0 : SyncState) (fetch : Except String (List Conversation))
       (files : List FileData) (statePath : String) (fs : FS),
       fsRead (runSyncLoop "machine-1" "2024-06-01T00:00:00Z" state0 fetch files
           statePath fs).2.1 statePath =
         some (marshalIndentState
           { (runSyncLoop "machine-1" "2024-06-01T00:00:00Z" state0 fetch files
               statePath fs).1.state with
             lastSyncAt := "2024-06-01T00:00:00Z" })) :=
  ⟨rfl,
   runSync_transmit_failure "machine-1" "2024-06-01T00:00:00Z" (fun _ => "") accW fdFail
     "3004a5141554a2a294c1d87f1d7de0ec54995e65b6ecfe3b11192b273062f7cb" deltaW
     "network unreachable" (by decide) (by decide) (by decide) (by decide)⟩

/-- The per-file step either leaves the request log alone or appends the
converted request of the file's delta. -/
theorem processFile_requests (machineID now : String) (remote : String → String)
    (acc : RunAcc) (fd : FileData) :
    (processFile machineID now remote acc fd).requests = acc.requests ∨
    ∃ d : Delta, (processFile machineID now remote acc fd).requests =
      acc.requests ++
        [{ machineID := machineID, sessionID := d.sessionID,
           projectPath := d.projectPath,
           messages := d.messages.map toApiMessage,
           timestamp := now }] := by
  unfold processFile
  split
  · exact Or.inl rfl
  · split
    · exact Or.inl rfl
    · split
      · exact Or.inl rfl
      · exact Or.inl rfl
      · rename_i d hd
        split
        · exact Or.inr ⟨d, rfl⟩
        · split
          · exact Or.inr ⟨d, rfl⟩
          · exact Or.inr ⟨d, rfl⟩

/-- Converted message lists carry only zero token counts. -/
theorem toApiMessage_tokens (l : List Message) :
    (l.map toApiMessage).all (fun m => m.tokens == 0) = true := by
  induction l with
  | nil => rfl
  | cons m t ih =>
    rw [List.map_cons, List.all_cons, ih, Bool.and_true]
    rfl

/-- The per-file step preserves the all-tokens-zero property of the
request log. -/
theorem processFile_tokens (machineID now : String) (remote : String → String)
    (acc : RunAcc) (fd : FileData)
    (h : acc.requests.all (fun req => req.messages.all (fun m => m.tokens == 0)) = true) :
    (processFile machineID now remote acc fd).requests.all
      (fun req => req.messages.all (fun m => m.tokens == 0)) = true := by
  rcases processFile_requests machineID now remote acc fd with hq | ⟨d, hq⟩
  · rw [hq]
    exact h
  · rw [hq, List.all_append, h, List.all_cons, List.all_nil, Bool.and_true,
      Bool.true_and]
    exact toApiMessage_tokens d.messages

/-- The whole loop preserves the all-tokens-zero property. -/
theorem foldl_tokens (machineID now : String) (remote : String → String) :
    ∀ (files : List FileData) (acc : RunAcc),
      acc.requests.all (fun req => req.messages.all (fun m => m.tokens == 0)) = true →
      ((files.foldl (processFile machineID now remote) acc).requests.all
        (fun req => req.messages.all (fun m => m.tokens == 0))) = true
  | [], _, h => h
  | fd :: rest, acc, h =>
    foldl_tokens machineID now remote rest _
      (processFile_tokens machineID now remote acc fd h)

/-- C9: every message the orchestrator hands to the transmitter has
`Tokens` 0, whatever token counts were parsed from the log file — while
the content hash's metadata sums the parsed token values into
`totalTokens`. -/
theorem runSync_api_tokens_zero (machineID now : String) (state0 : SyncState)
    (fetch : Except String (List Conversation)) (files : List FileData)
    (statePath : String) (fs : FS) :
    ((runSyncLoop machineID now state0 fetch files statePath fs).1.requests.all
      (fun req => req.messages.all (fun m => m.tokens == 0))) = true ∧
    ∀ (file : FileInfo) (m0 : Message) (rest : List Message)
      (modelOrder : List String),
      ("totalTokens", Jval.jnum (calculateTotalTokens (m0 :: rest))) ∈
        fileHashMetadata file m0 rest modelOrder := by
  constructor
  · exact foldl_tokens machineID now _ files _ rfl
  · intro file m0 rest mo
    simp [fileHashMetadata]

/-- C10: a failed conversation-list fetch does not abort the run — it is
the same run as with an empty remote conversation list; the empty
remote-hash map gives every session the absent hash `""`, and a session
with an absent remote hash always needs sync. -/
theorem runSync_fetch_failure (machineID now : String) (state0 : SyncState)
    (e : String) (files : List FileData) (statePath : String) (fs : FS) :
    runSyncLoop machineID now state0 (.error e) files statePath fs =
      runSyncLoop machineID now state0 (.ok []) files statePath fs ∧
    (∀ sid : String, mapGet (buildRemoteHashes []) sid = "") ∧
    (∀ localHash : String, ConversationNeedsSync localHash "" = true) :=
  ⟨rfl, fun _ => rfl, fun _ => rfl⟩

end SyncEngine
